import Mathlib

/-!
Verification of the var-manager core: a shallow embedding of the repository's
dependency resolver (`core/resolver.py`), metadata scanner (`core/scanner.py`),
activation engine and incremental change check (`gui_qt.py`), and the CLI
mover (`core/mover.py`, `cli.py`), together with proofs of the spec's claims.

Python strings are modelled as `List Char` (`Str`); Python string methods are
given small executable counterparts (`pyLower`, `pyEndsWith`, ...).  The
filesystem is modelled as an association list from (flat, relative) file names
to opaque content identifiers, renames moving a binding from one name to
another.
-/

set_option maxHeartbeats 1000000

abbrev Str := List Char

/-- Python `s.endswith(t)`. -/
def pyEndsWith (s t : Str) : Bool := t.isSuffixOf s

/-- Python `s.startswith(t)`. -/
def pyStartsWith (s t : Str) : Bool := t.isPrefixOf s

/-- Python `t in s` (substring containment). -/
def pyContains (s t : Str) : Bool := decide (t <:+: s)

/-- Python `s.lower()`. -/
def pyLower (s : Str) : Str := s.map Char.toLower

/-- Python `s[:-n]` for `0 < n ≤ len s`. -/
def pyDropRight (s : Str) (n : Nat) : Str := s.take (s.length - n)

/-- Python `pathlib.Path(s).name`: the part after the last `/`. -/
def pyBasename (s : Str) : Str := (s.reverse.takeWhile (fun c => c ≠ '/')).reverse

/-- Python `str.strip()` (whitespace trim). -/
def pyStrip (s : Str) : Str :=
  (s.dropWhile Char.isWhitespace).reverse.dropWhile Char.isWhitespace |>.reverse

/-- Python `s.replace(a, b)` for single characters. -/
def pyReplace (s : Str) (a b : Char) : Str := s.map (fun c => if c = a then b else c)

/-- Lexicographic `<` on code points, Python's `str` ordering. -/
def strLt : Str → Str → Bool
  | [], [] => false
  | [], _ :: _ => true
  | _ :: _, [] => false
  | a :: s, b :: t => if a = b then strLt s t else decide (a.val < b.val)

/-- Total `≤` used for Python `sorted`. -/
def strLe (s t : Str) : Bool := !(strLt t s)

/-- Left fold deduplication keeping first occurrences (Python `dict`/`set`
    insertion-order iteration of freshly built containers). -/
def pyDedup (l : List Str) : List Str :=
  (l.foldl (fun acc p => if p ∈ acc then acc else p :: acc) []).reverse

/-! ## `core/resolver.py` -/

/-- `is_asset_var` from `core/resolver.py`. -/
def is_asset_var (var_name : Str) : Bool :=
  let lname := pyLower var_name
  pyContains lname "[asset]".data || pyContains lname "[assets]".data ||
    pyContains lname ".asset".data

/-- `resolve_dependency` from `core/resolver.py`: resolve a dependency token
against the universe of known var names. -/
def resolve_dependency (dep_name : Str) (all_vars : List Str) : List Str :=
  if pyEndsWith dep_name ".var".data then
    if dep_name ∈ all_vars then [dep_name] else []
  else if pyEndsWith dep_name ".latest".data then
    all_vars.filter (fun v =>
      pyStartsWith v (pyDropRight dep_name (".latest".data).length ++ ".".data) &&
        pyEndsWith v ".var".data)
  else
    if dep_name ++ ".var".data ∈ all_vars then [dep_name ++ ".var".data] else []

/-! ## The worklist closure shared by `collect_used_and_unused_vars`
(`core/resolver.py`) and `compute_keep_set_for_scene_vars` (`gui_qt.py`).

Both Python loops are textually identical:

    while queue:
        dep = queue.pop()
        for matched_var in resolve_dependency(dep, all_vars):
            if matched_var not in keep:
                keep.add(matched_var)
                queue.extend(deps(matched_var))

`queue.pop()` pops from the END of the Python list; the Lean `stack` list is
that queue reversed, so the head is the next token popped and
`queue.extend(ds)` prepends `ds.reverse`. -/

/-- Inner `for matched_var in resolve_dependency(...)` loop body. -/
def addMatches (deps : Str → List Str) (keep stack : List Str) :
    List Str → List Str × List Str
  | [] => (keep, stack)
  | m :: ms =>
    if m ∈ keep then addMatches deps keep stack ms
    else addMatches deps (m :: keep) ((deps m).reverse ++ stack) ms

theorem addMatches_keep_mono (deps : Str → List Str) (ms : List Str)
    (keep stack : List Str) : keep ⊆ (addMatches deps keep stack ms).1 := by
  induction ms generalizing keep stack with
  | nil => simp [addMatches]
  | cons m ms ih =>
    simp only [addMatches]
    split
    · exact ih keep stack
    · exact fun x hx =>
        ih (m :: keep) _ (List.mem_cons_of_mem _ hx)

theorem addMatches_stack_mono (deps : Str → List Str) (ms : List Str)
    (keep stack : List Str) : stack ⊆ (addMatches deps keep stack ms).2 := by
  induction ms generalizing keep stack with
  | nil => simp [addMatches]
  | cons m ms ih =>
    simp only [addMatches]
    split
    · exact ih keep stack
    · exact fun x hx =>
        ih (m :: keep) _ (by simp [hx])

theorem addMatches_mem_keep (deps : Str → List Str) (ms : List Str)
    (keep stack : List Str) (m : Str) (hm : m ∈ ms) :
    m ∈ (addMatches deps keep stack ms).1 := by
  induction ms generalizing keep stack with
  | nil => cases hm
  | cons a ms ih =>
    simp only [addMatches]
    rcases List.mem_cons.mp hm with rfl | hm'
    · split
      · exact addMatches_keep_mono deps ms keep stack ‹m ∈ keep›
      · exact addMatches_keep_mono deps ms _ _ (List.mem_cons_self _ _)
    · split
      · exact ih _ _ hm'
      · exact ih _ _ hm'

theorem addMatches_keep_sub (deps : Str → List Str) (ms : List Str)
    (keep stack : List Str) (x : Str) (hx : x ∈ (addMatches deps keep stack ms).1) :
    x ∈ keep ∨ x ∈ ms := by
  induction ms generalizing keep stack with
  | nil => exact Or.inl hx
  | cons m ms ih =>
    simp only [addMatches] at hx
    split at hx
    · rcases ih _ _ hx with h | h
      · exact Or.inl h
      · exact Or.inr (List.mem_cons_of_mem _ h)
    · rcases ih _ _ hx with h | h
      · rcases List.mem_cons.mp h with rfl | h'
        · exact Or.inr (List.mem_cons_self _ _)
        · exact Or.inl h'
      · exact Or.inr (List.mem_cons_of_mem _ h)

theorem addMatches_new_deps (deps : Str → List Str) (ms : List Str)
    (keep stack : List Str) (x : Str) (hx : x ∈ (addMatches deps keep stack ms).1) :
    x ∈ keep ∨ deps x ⊆ (addMatches deps keep stack ms).2 := by
  induction ms generalizing keep stack with
  | nil => exact Or.inl hx
  | cons m ms ih =>
    by_cases hm : m ∈ keep
    · simp only [addMatches, if_pos hm] at hx ⊢
      exact ih _ _ hx
    · simp only [addMatches, if_neg hm] at hx ⊢
      rcases ih _ _ hx with h | h
      · rcases List.mem_cons.mp h with rfl | h'
        · refine Or.inr ?_
          refine List.Subset.trans ?_ (addMatches_stack_mono deps ms _ _)
          intro y hy
          exact List.mem_append.mpr (Or.inl (List.mem_reverse.mpr hy))
        · exact Or.inl h'
      · exact Or.inr h

theorem addMatches_stack_src (deps : Str → List Str) (ms : List Str)
    (keep stack : List Str) (y : Str) (hy : y ∈ (addMatches deps keep stack ms).2) :
    y ∈ stack ∨ ∃ x, x ∈ (addMatches deps keep stack ms).1 ∧ y ∈ deps x := by
  induction ms generalizing keep stack with
  | nil => exact Or.inl hy
  | cons m ms ih =>
    by_cases hm : m ∈ keep
    · simp only [addMatches, if_pos hm] at hy ⊢
      exact ih _ _ hy
    · simp only [addMatches, if_neg hm] at hy ⊢
      rcases ih _ _ hy with h | h
      · rcases List.mem_append.mp h with h' | h'
        · refine Or.inr ⟨m, ?_, List.mem_reverse.mp h'⟩
          exact addMatches_keep_mono deps ms _ _ (List.mem_cons_self _ _)
        · exact Or.inl h'
      · rcases h with ⟨x, hx1, hx2⟩
        exact Or.inr ⟨x, hx1, hx2⟩

theorem addMatches_progress (deps : Str → List Str) (ms : List Str)
    (keep stack : List Str) :
    addMatches deps keep stack ms = (keep, stack) ∨
      ∃ x, x ∈ (addMatches deps keep stack ms).1 ∧ x ∉ keep ∧ x ∈ ms := by
  induction ms generalizing keep stack with
  | nil => exact Or.inl rfl
  | cons m ms ih =>
    simp only [addMatches]
    split
    · rcases ih keep stack with h | ⟨x, h1, h2, h3⟩
      · exact Or.inl h
      · exact Or.inr ⟨x, h1, h2, List.mem_cons_of_mem _ h3⟩
    · rename_i hmem
      refine Or.inr ⟨m, ?_, hmem, List.mem_cons_self _ _⟩
      exact addMatches_keep_mono deps ms _ _ (List.mem_cons_self _ _)

theorem resolve_dependency_subset (dep : Str) (all_vars : List Str) :
    resolve_dependency dep all_vars ⊆ all_vars := by
  unfold resolve_dependency
  split
  · split
    · intro x hx; rcases List.mem_singleton.mp hx with rfl; assumption
    · intro x hx; cases hx
  · split
    · exact fun x hx => (List.mem_filter.mp hx).1
    · split
      · intro x hx; rcases List.mem_singleton.mp hx with rfl; assumption
      · intro x hx; cases hx

theorem countP_lt_of_witness {α : Type} (l : List α) (p q : α → Bool)
    (hpq : ∀ a, p a = true → q a = true) (x : α) (hx : x ∈ l)
    (hqx : q x = true) (hpx : p x = false) : l.countP p < l.countP q := by
  induction l with
  | nil => cases hx
  | cons a t ih =>
    rw [List.countP_cons, List.countP_cons]
    rcases List.mem_cons.mp hx with rfl | hx'
    · rw [hpx, hqx, if_neg (by simp), if_pos rfl]
      have := List.countP_mono_left (l := t) (p := p) (q := q) (fun a _ => hpq a)
      omega
    · have := ih hx'
      have hle : (if p a = true then 1 else 0) ≤ (if q a = true then 1 else 0) := by
        by_cases hpa : p a = true
        · rw [if_pos hpa, if_pos (hpq a hpa)]
        · simp [hpa]
      omega

/-- The `while queue:` loop. `univ` is `all_vars`. -/
def closureLoop (deps : Str → List Str) (univ : List Str) :
    List Str → List Str → List Str
  | keep, [] => keep
  | keep, d :: stack =>
    let p := addMatches deps keep stack (resolve_dependency d univ)
    closureLoop deps univ p.1 p.2
termination_by keep stack =>
  ((univ.filter (fun v => decide (v ∉ keep))).length, stack.length)
decreasing_by
  rcases addMatches_progress deps (resolve_dependency d univ) keep stack with
    heq | ⟨x, hx1, hx2, hx3⟩
  · rw [heq]
    exact Prod.Lex.right _ (Nat.lt_succ_self _)
  · apply Prod.Lex.left
    rw [← List.countP_eq_length_filter, ← List.countP_eq_length_filter]
    refine countP_lt_of_witness univ _ _ ?_ x
      (resolve_dependency_subset d univ hx3) ?_ ?_
    · intro a ha
      simp only [decide_eq_true_eq] at ha ⊢
      intro hmem
      exact ha (addMatches_keep_mono deps _ keep stack hmem)
    · simp [hx2]
    · simp [hx1]

theorem closureLoop_keep_mono (deps : Str → List Str) (univ : List Str)
    (keep stack : List Str) : keep ⊆ closureLoop deps univ keep stack := by
  refine closureLoop.induct deps univ
    (fun keep stack => keep ⊆ closureLoop deps univ keep stack) ?_ ?_ keep stack
  · intro keep; simp [closureLoop]
  · intro keep d stack p ih
    rw [closureLoop]
    exact List.Subset.trans (addMatches_keep_mono deps _ keep stack) ih

theorem closureLoop_keep_sub (deps : Str → List Str) (univ : List Str)
    (keep stack : List Str) (x : Str)
    (hx : x ∈ closureLoop deps univ keep stack) : x ∈ keep ∨ x ∈ univ := by
  refine closureLoop.induct deps univ
    (fun keep stack => ∀ x, x ∈ closureLoop deps univ keep stack →
      x ∈ keep ∨ x ∈ univ) ?_ ?_ keep stack x hx
  · intro keep x hx
    exact Or.inl (by simpa [closureLoop] using hx)
  · intro keep d stack p ih x hx
    rw [closureLoop] at hx
    rcases ih x hx with h | h
    · rcases addMatches_keep_sub deps _ keep stack x h with h1 | h1
      · exact Or.inl h1
      · exact Or.inr (resolve_dependency_subset d univ h1)
    · exact Or.inr h

/-- Every match of every token on the stack ends up in the final keep set. -/
theorem closureLoop_stack_matches (deps : Str → List Str) (univ : List Str)
    (keep stack : List Str) (d : Str) (hd : d ∈ stack) (m : Str)
    (hm : m ∈ resolve_dependency d univ) :
    m ∈ closureLoop deps univ keep stack := by
  refine closureLoop.induct deps univ
    (fun keep stack => ∀ d, d ∈ stack → ∀ m, m ∈ resolve_dependency d univ →
      m ∈ closureLoop deps univ keep stack) ?_ ?_ keep stack d hd m hm
  · intro keep d hd
    cases hd
  · intro keep d0 stack p ih d hd m hm
    rw [closureLoop]
    rcases List.mem_cons.mp hd with rfl | hd1
    · exact closureLoop_keep_mono deps univ _ _
        (addMatches_mem_keep deps _ keep stack m hm)
    · exact ih d (addMatches_stack_mono deps _ keep stack hd1) m hm

/-- Python `set.add`. -/
def setAdd (k : List Str) (x : Str) : List Str := if x ∈ k then k else x :: k

/-- `MainWindow.compute_keep_set_for_scene_vars` (`gui_qt.py`).  `all_vars`
stands for `self.all_var_names_on_disk()` — every var on disk, enabled or
disabled, normalised to its original name — and `deps` for
`self._deps_for_var_name`. -/
def compute_keep_set_for_scene_vars (deps : Str → List Str) (all_vars : List Str)
    (scene_vars : List Str) : List Str :=
  let protectedVars := all_vars.filter (fun v =>
    is_asset_var v || pyContains (pyLower v) "[plugin]".data)
  let seeds := scene_vars.filter (fun v => decide (v ∈ all_vars))
  let keep0 := seeds.foldl setAdd protectedVars
  let stack0 := ((seeds.map deps).flatten).reverse
  closureLoop deps all_vars keep0 stack0

/-- Result record of `scan_var` as used by `collect_used_and_unused_vars`:
`info.get("has_scene")` and `info.get("dependencies", [])`. -/
structure ScanInfo where
  has_scene : Bool
  dependencies : List Str

/-- `collect_used_and_unused_vars` (`core/resolver.py`).  `scan` stands for
`scan_var`; `files` is the directory listing, of which
`var_dir.glob("*.var")` retains the top-level `.var` names. -/
def collect_used_and_unused_vars (scan : Str → ScanInfo) (files : List Str) :
    List Str × List Str × List Str :=
  let all_vars := (files.filter (fun n =>
    decide ('/' ∉ n) && pyEndsWith n ".var".data)).dedup
  let scene_vars := all_vars.filter (fun v => (scan v).has_scene)
  let stack0 := ((scene_vars.map (fun v => (scan v).dependencies)).flatten).reverse
  let used_vars :=
    closureLoop (fun v => (scan v).dependencies) all_vars scene_vars stack0
  let unused_vars := all_vars.filter (fun v =>
    decide (v ∉ used_vars) && !(is_asset_var v))
  (scene_vars, used_vars, unused_vars)

theorem foldl_setAdd_mem (seeds : List Str) (k : List Str) (x : Str) :
    x ∈ seeds.foldl setAdd k ↔ x ∈ k ∨ x ∈ seeds := by
  induction seeds generalizing k with
  | nil => simp
  | cons s seeds ih =>
    simp only [List.foldl_cons, ih, setAdd]
    split
    · rename_i hs
      constructor
      · rintro (h | h)
        · exact Or.inl h
        · exact Or.inr (List.mem_cons_of_mem _ h)
      · rintro (h | h)
        · exact Or.inl h
        · rcases List.mem_cons.mp h with rfl | h'
          · exact Or.inl hs
          · exact Or.inr h'
    · constructor
      · rintro (h | h)
        · rcases List.mem_cons.mp h with rfl | h'
          · exact Or.inr (List.mem_cons_self _ _)
          · exact Or.inl h'
        · exact Or.inr (List.mem_cons_of_mem _ h)
      · rintro (h | h)
        · exact Or.inl (List.mem_cons_of_mem _ h)
        · rcases List.mem_cons.mp h with rfl | h'
          · exact Or.inl (List.mem_cons_self _ _)
          · exact Or.inr h'

/-- The initial keep set of `compute_keep_set_for_scene_vars` is contained in
the final one. -/
theorem compute_keep_set_keep0_sub (deps : Str → List Str)
    (all_vars scene_vars : List Str) (x : Str)
    (hx : x ∈ (scene_vars.filter (fun v => decide (v ∈ all_vars))).foldl setAdd
        (all_vars.filter (fun v =>
          is_asset_var v || pyContains (pyLower v) "[plugin]".data))) :
    x ∈ compute_keep_set_for_scene_vars deps all_vars scene_vars := by
  unfold compute_keep_set_for_scene_vars
  exact closureLoop_keep_mono deps all_vars _ _ hx

/-- Protected (asset- or plugin-named) members of the universe are in the
initial keep set, hence in every computed keep set. -/
theorem protected_sub_keep (deps : Str → List Str) (all_vars scene_vars : List Str)
    (v : Str) (hv : v ∈ all_vars)
    (hp : is_asset_var v = true ∨ pyContains (pyLower v) "[plugin]".data = true) :
    v ∈ compute_keep_set_for_scene_vars deps all_vars scene_vars := by
  apply compute_keep_set_keep0_sub
  rw [foldl_setAdd_mem]
  refine Or.inl (List.mem_filter.mpr ⟨hv, ?_⟩)
  rcases hp with h | h <;> simp [h]

/-- Seeds that are in the universe are in the computed keep set. -/
theorem seeds_sub_keep (deps : Str → List Str) (all_vars scene_vars : List Str)
    (v : Str) (hv : v ∈ scene_vars) (hv2 : v ∈ all_vars) :
    v ∈ compute_keep_set_for_scene_vars deps all_vars scene_vars := by
  apply compute_keep_set_keep0_sub
  rw [foldl_setAdd_mem]
  exact Or.inr (List.mem_filter.mpr ⟨hv, by simpa using hv2⟩)

/-- The computed keep set only contains members of the universe. -/
theorem compute_keep_set_sub_univ (deps : Str → List Str)
    (all_vars scene_vars : List Str) (x : Str)
    (hx : x ∈ compute_keep_set_for_scene_vars deps all_vars scene_vars) :
    x ∈ all_vars := by
  unfold compute_keep_set_for_scene_vars at hx
  rcases closureLoop_keep_sub _ _ _ _ _ hx with h | h
  · rw [foldl_setAdd_mem] at h
    rcases h with h | h
    · exact (List.mem_filter.mp h).1
    · simpa using (List.mem_filter.mp h).2
  · exact h

/-- Closure invariant: if every keep member either has all matches of all of
its tokens already in `keep` or still has those tokens on the stack, then the
final result is dependency-closed. -/
theorem closureLoop_closed (deps : Str → List Str) (univ : List Str)
    (keep stack : List Str)
    (hinv : ∀ v ∈ keep, ∀ d ∈ deps v,
      (∀ m ∈ resolve_dependency d univ, m ∈ keep) ∨ d ∈ stack) :
    ∀ v ∈ closureLoop deps univ keep stack, ∀ d ∈ deps v,
      ∀ m ∈ resolve_dependency d univ, m ∈ closureLoop deps univ keep stack := by
  refine closureLoop.induct deps univ
    (fun keep stack =>
      (∀ v ∈ keep, ∀ d ∈ deps v,
        (∀ m ∈ resolve_dependency d univ, m ∈ keep) ∨ d ∈ stack) →
      ∀ v ∈ closureLoop deps univ keep stack, ∀ d ∈ deps v,
        ∀ m ∈ resolve_dependency d univ, m ∈ closureLoop deps univ keep stack)
    ?_ ?_ keep stack hinv
  · intro keep hinv v hv d hd m hm
    rw [closureLoop] at hv ⊢
    rcases hinv v hv d hd with h | h
    · exact h m hm
    · cases h
  · intro keep d0 stack p ih hinv
    rw [closureLoop]
    apply ih
    intro v hv d hd
    rcases addMatches_new_deps deps _ keep stack v hv with hvk | hvd
    · rcases hinv v hvk d hd with h | h
      · exact Or.inl (fun m hm => addMatches_keep_mono deps _ keep stack (h m hm))
      · rcases List.mem_cons.mp h with rfl | h'
        · exact Or.inl (fun m hm => addMatches_mem_keep deps _ keep stack m hm)
        · exact Or.inr (addMatches_stack_mono deps _ keep stack h')
    · exact Or.inr (hvd hd)

/-- If `T` is dependency-closed, contains `keep`, and absorbs the matches of
every stacked token, then the closure stays inside `T`. -/
theorem closureLoop_sub_of_closed (deps : Str → List Str) (univ : List Str)
    (T : List Str)
    (hT : ∀ v ∈ T, ∀ d ∈ deps v, ∀ m ∈ resolve_dependency d univ, m ∈ T)
    (keep stack : List Str) (hkeep : keep ⊆ T)
    (hstack : ∀ d ∈ stack, ∀ m ∈ resolve_dependency d univ, m ∈ T) :
    closureLoop deps univ keep stack ⊆ T := by
  refine closureLoop.induct deps univ
    (fun keep stack => keep ⊆ T →
      (∀ d ∈ stack, ∀ m ∈ resolve_dependency d univ, m ∈ T) →
      closureLoop deps univ keep stack ⊆ T) ?_ ?_ keep stack hkeep hstack
  · intro keep hkeep _
    rw [closureLoop]
    exact hkeep
  · intro keep d0 stack p ih hkeep hstack
    rw [closureLoop]
    apply ih
    · intro x hx
      rcases addMatches_keep_sub deps _ keep stack x hx with h | h
      · exact hkeep h
      · exact hstack d0 (List.mem_cons_self _ _) x h
    · intro d hd m hm
      rcases addMatches_stack_src deps _ keep stack d hd with h | ⟨x, hx1, hx2⟩
      · exact hstack d (List.mem_cons_of_mem _ h) m hm
      · rcases addMatches_keep_sub deps _ keep stack x hx1 with h' | h'
        · exact hT x (hkeep h') d hx2 m hm
        · exact hT x (hstack d0 (List.mem_cons_self _ _) x h') d hx2 m hm

/-- Applying `compute_keep_set_for_scene_vars` to a seed set that already
contains every protected package (e.g. any previously computed keep set)
yields a dependency-closed result: every seed has its tokens enqueued. -/
theorem compute_keep_set_closed_of_seed_keep (deps : Str → List Str)
    (all_vars seeds : List Str) (hseeds : seeds ⊆ all_vars)
    (hprot : ∀ v ∈ all_vars,
      (is_asset_var v || pyContains (pyLower v) "[plugin]".data) = true →
        v ∈ seeds) :
    ∀ v ∈ compute_keep_set_for_scene_vars deps all_vars seeds, ∀ d ∈ deps v,
      ∀ m ∈ resolve_dependency d all_vars,
        m ∈ compute_keep_set_for_scene_vars deps all_vars seeds := by
  have hfilter : seeds.filter (fun v => decide (v ∈ all_vars)) = seeds := by
    apply List.filter_eq_self.mpr
    intro a ha
    simpa using hseeds ha
  unfold compute_keep_set_for_scene_vars
  rw [hfilter]
  apply closureLoop_closed
  intro v hv d hd
  rw [foldl_setAdd_mem] at hv
  have hvseed : v ∈ seeds := by
    rcases hv with h | h
    · exact hprot v (List.mem_filter.mp h).1 (List.mem_filter.mp h).2
    · exact h
  refine Or.inr ?_
  rw [List.mem_reverse, List.mem_flatten]
  exact ⟨deps v, List.mem_map_of_mem deps hvseed, hd⟩

theorem pyEndsWith_append_self (s t : Str) : pyEndsWith (s ++ t) t = true := by
  rw [pyEndsWith, List.isSuffixOf_iff_suffix]
  exact List.suffix_append s t

theorem pyEndsWith_append_of_le (s t u : Str) (h : u.length ≤ t.length) :
    pyEndsWith (s ++ t) u = pyEndsWith t u := by
  rw [pyEndsWith, pyEndsWith, Bool.eq_iff_iff, List.isSuffixOf_iff_suffix,
    List.isSuffixOf_iff_suffix]
  constructor
  · intro hsuf
    rw [List.suffix_iff_eq_drop] at hsuf ⊢
    have hlen : (s ++ t).length - u.length = s.length + (t.length - u.length) := by
      rw [List.length_append]; omega
    rw [hlen, List.drop_append] at hsuf
    exact hsuf
  · intro hsuf
    exact hsuf.trans (List.suffix_append s t)

theorem pyDropRight_append (s t : Str) : pyDropRight (s ++ t) t.length = s := by
  rw [pyDropRight, List.length_append]
  have h : s.length + t.length - t.length = s.length := by omega
  rw [h, List.take_left]

/-- Characterisation of `resolve_dependency` on a `base.latest` token. -/
theorem resolve_latest_iff (base : Str) (univ : List Str) (v : Str) :
    v ∈ resolve_dependency (base ++ ".latest".data) univ ↔
      v ∈ univ ∧ pyStartsWith v (base ++ ".".data) = true ∧
        pyEndsWith v ".var".data = true := by
  have h1 : pyEndsWith (base ++ ".latest".data) ".var".data = false := by
    rw [pyEndsWith_append_of_le base _ _ (by decide)]
    decide
  have h2 : pyEndsWith (base ++ ".latest".data) ".latest".data = true :=
    pyEndsWith_append_self _ _
  have h3 : pyDropRight (base ++ ".latest".data) ((".latest".data).length) = base :=
    pyDropRight_append base _
  rw [resolve_dependency, h1, h2]
  simp only [Bool.false_eq_true, if_false, if_true, h3, List.mem_filter,
    Bool.and_eq_true]

/-- **C1.** A `base.latest` dependency token matches every `.var` package in
the universe whose name starts with `base + "."` — every version variant,
never only a single highest version — and during closure computation every
match of every resolved token is added to the keep set. -/
theorem c1_latest_matches_all_variants :
    (∀ (base : Str) (univ : List Str) (v : Str),
        v ∈ resolve_dependency (base ++ ".latest".data) univ ↔
          v ∈ univ ∧ pyStartsWith v (base ++ ".".data) = true ∧
            pyEndsWith v ".var".data = true) ∧
    (∀ (deps : Str → List Str) (all_vars scene_vars : List Str) (s d m : Str),
        s ∈ scene_vars → s ∈ all_vars → d ∈ deps s →
        m ∈ resolve_dependency d all_vars →
        m ∈ compute_keep_set_for_scene_vars deps all_vars scene_vars) := by
  constructor
  · exact resolve_latest_iff
  · intro deps all_vars scene_vars s d m hs hs2 hd hm
    unfold compute_keep_set_for_scene_vars
    apply closureLoop_stack_matches _ _ _ _ d _ m hm
    rw [List.mem_reverse, List.mem_flatten]
    exact ⟨deps s,
      List.mem_map_of_mem deps (List.mem_filter.mpr ⟨hs, by simpa using hs2⟩), hd⟩

def exUniv : List Str :=
  ["A.1.var".data, "A.2.var".data, "A.10.var".data, "Scene.var".data]

def exDeps : Str → List Str :=
  fun v => if v = "Scene.var".data then ["A.latest".data] else []

theorem c1_witness :
    ("A.1.var".data ∈ resolve_dependency ("A".data ++ ".latest".data) exUniv ∧
      "A.2.var".data ∈ resolve_dependency ("A".data ++ ".latest".data) exUniv ∧
      "A.10.var".data ∈ resolve_dependency ("A".data ++ ".latest".data) exUniv) ∧
    "A.10.var".data ∈
      compute_keep_set_for_scene_vars exDeps exUniv ["Scene.var".data] :=
  ⟨⟨(c1_latest_matches_all_variants.1 "A".data exUniv "A.1.var".data).mpr
      ⟨by decide, by decide, by decide⟩,
    (c1_latest_matches_all_variants.1 "A".data exUniv "A.2.var".data).mpr
      ⟨by decide, by decide, by decide⟩,
    (c1_latest_matches_all_variants.1 "A".data exUniv "A.10.var".data).mpr
      ⟨by decide, by decide, by decide⟩⟩,
    c1_latest_matches_all_variants.2 exDeps exUniv ["Scene.var".data]
      "Scene.var".data "A.latest".data "A.10.var".data
      (by decide) (by decide) (by decide) (by decide)⟩

/-- **C3.** Every protected package of the universe (asset- or plugin-named)
is in every computed keep set regardless of the seed, and an asset-named
package is never classified as unused by the resolver. -/
theorem c3_protected_always_kept :
    (∀ (deps : Str → List Str) (all_vars scene_vars : List Str) (v : Str),
        v ∈ all_vars →
        (is_asset_var v = true ∨ pyContains (pyLower v) "[plugin]".data = true) →
        v ∈ compute_keep_set_for_scene_vars deps all_vars scene_vars) ∧
    (∀ (scan : Str → ScanInfo) (files : List Str) (v : Str),
        is_asset_var v = true →
        v ∉ (collect_used_and_unused_vars scan files).2.2) := by
  constructor
  · exact protected_sub_keep
  · intro scan files v hasset hmem
    unfold collect_used_and_unused_vars at hmem
    have h := (List.mem_filter.mp hmem).2
    simp [hasset] at h

def exScan : Str → ScanInfo := fun _ => ⟨false, []⟩

theorem c3_witness :
    ("a.[asset].1.var".data ∈ exUniv ++ ["a.[asset].1.var".data] ∧
      is_asset_var "a.[asset].1.var".data = true) ∧
    "a.[asset].1.var".data ∈ compute_keep_set_for_scene_vars exDeps
        (exUniv ++ ["a.[asset].1.var".data]) [] ∧
    "a.[asset].1.var".data ∉
      (collect_used_and_unused_vars exScan ["a.[asset].1.var".data]).2.2 :=
  ⟨⟨by decide, by decide⟩,
    c3_protected_always_kept.1 exDeps (exUniv ++ ["a.[asset].1.var".data]) []
      "a.[asset].1.var".data (by decide) (Or.inl (by decide)),
    c3_protected_always_kept.2 exScan ["a.[asset].1.var".data]
      "a.[asset].1.var".data (by decide)⟩

def c6univ : List Str := ["a.[asset].1.var".data, "b.1.var".data]

def c6deps : Str → List Str :=
  fun v => if v = "a.[asset].1.var".data then ["b.1".data] else []

/-- **C6 counterexample.** With universe `{a.[asset].1.var, b.1.var}`, where
the protected asset var declares a dependency on `b.1`, the empty seed yields
keep set `{a.[asset].1.var}` (a protected package's tokens are not enqueued),
but feeding that keep set back as the seed also pulls in `b.1.var`: resolution
is not idempotent after a single application. -/
theorem c6_counterexample :
    "b.1.var".data ∈ compute_keep_set_for_scene_vars c6deps c6univ
        (compute_keep_set_for_scene_vars c6deps c6univ []) ∧
    "b.1.var".data ∉ compute_keep_set_for_scene_vars c6deps c6univ [] := by
  constructor
  · simp +decide [compute_keep_set_for_scene_vars, c6univ, c6deps, closureLoop,
      addMatches, resolve_dependency, setAdd, pyEndsWith, pyStartsWith, pyLower,
      pyContains, pyDropRight, is_asset_var]
  · simp +decide [compute_keep_set_for_scene_vars, c6univ, c6deps, closureLoop,
      addMatches, resolve_dependency, setAdd, pyEndsWith, pyStartsWith, pyLower,
      pyContains, pyDropRight, is_asset_var]

/-- **C6 (amended).** Re-seeding with a computed keep set can strictly grow
the result once (a protected package's dependency tokens are only enqueued
when it is a seed), but from the second application on the keep set is a fixed
point: re-seeding with `K (K seeds)` returns exactly `K (K seeds)`. -/
theorem c6_keep_set_idempotent_from_second :
    ∀ (deps : Str → List Str) (all_vars seeds : List Str) (x : Str),
      x ∈ compute_keep_set_for_scene_vars deps all_vars
          (compute_keep_set_for_scene_vars deps all_vars
            (compute_keep_set_for_scene_vars deps all_vars seeds)) ↔
        x ∈ compute_keep_set_for_scene_vars deps all_vars
          (compute_keep_set_for_scene_vars deps all_vars seeds) := by
  intro deps all_vars seeds x
  set K1 := compute_keep_set_for_scene_vars deps all_vars seeds with hK1
  set K2 := compute_keep_set_for_scene_vars deps all_vars K1 with hK2
  have hK1univ : K1 ⊆ all_vars := fun y hy =>
    compute_keep_set_sub_univ deps all_vars seeds y hy
  have hK2univ : K2 ⊆ all_vars := fun y hy =>
    compute_keep_set_sub_univ deps all_vars K1 y hy
  have hK2prot : ∀ v ∈ all_vars,
      (is_asset_var v || pyContains (pyLower v) "[plugin]".data) = true →
        v ∈ K2 := by
    intro v hv hp
    rw [Bool.or_eq_true] at hp
    exact protected_sub_keep deps all_vars K1 v hv hp
  have hclosed : ∀ v ∈ K2, ∀ d ∈ deps v,
      ∀ m ∈ resolve_dependency d all_vars, m ∈ K2 := by
    rw [hK2]
    apply compute_keep_set_closed_of_seed_keep deps all_vars K1 hK1univ
    intro v hv hp
    rw [Bool.or_eq_true] at hp
    exact protected_sub_keep deps all_vars seeds v hv hp
  constructor
  · intro hx
    refine closureLoop_sub_of_closed deps all_vars K2 hclosed _ _ ?_ ?_ hx
    · intro y hy
      rw [foldl_setAdd_mem] at hy
      rcases hy with h | h
      · exact hK2prot y (List.mem_filter.mp h).1 (List.mem_filter.mp h).2
      · exact (List.mem_filter.mp h).1
    · intro d hd m hm
      rw [List.mem_reverse, List.mem_flatten] at hd
      rcases hd with ⟨l, hl, hdl⟩
      rcases List.mem_map.mp hl with ⟨v, hv, rfl⟩
      have hvK2 : v ∈ K2 := (List.mem_filter.mp hv).1
      exact hclosed v hvK2 d hdl m hm
  · intro hx
    exact seeds_sub_keep deps all_vars K2 x hx (hK2univ hx)

/-! ## `core/scanner.py`

A parsed JSON document (`json.loads` output).  Numbers are modelled as
integers; a JSON `null` is Python `None`.  Container `repr` strings (only
reachable through `str()` of a non-scalar `creator`/`packageName`) are
abstracted to fixed placeholders. -/

inductive JValue where
  | null
  | jbool (b : Bool)
  | jnum (n : Int)
  | jstr (s : Str)
  | jarr (xs : List JValue)
  | jobj (fields : List (Str × JValue))

/-- Python `dict.get` on a JSON object. -/
def jGet (fields : List (Str × JValue)) (key : Str) : Option JValue :=
  match fields with
  | [] => none
  | (k, v) :: rest => if k = key then some v else jGet rest key

/-- Python truthiness of a JSON-derived value. -/
def jTruthy : JValue → Bool
  | .null => false
  | .jbool b => b
  | .jnum n => decide (n ≠ 0)
  | .jstr s => decide (s ≠ [])
  | .jarr xs => !xs.isEmpty
  | .jobj fs => !fs.isEmpty

/-- Python `str(x)` (container `repr`s abstracted). -/
def jStr : JValue → Str
  | .null => "None".data
  | .jbool b => (if b then "True" else "False").data
  | .jnum n => (toString n).data
  | .jstr s => s
  | .jarr _ => "list".data
  | .jobj _ => "dict".data

/-- `isinstance(x, (str, int, float))` conversion: Python `bool` is an `int`,
so `True`/`False` pass and stringify. -/
def jPrimStr : JValue → Option Str
  | .jstr s => some s
  | .jnum n => some ((toString n).data)
  | .jbool b => some ((if b then "True" else "False").data)
  | _ => none

/-- First truthy value of `x.get(k1) or x.get(k2) or ...`, defaulting to `""`. -/
def firstTruthy : List (Option JValue) → JValue
  | [] => .jstr []
  | none :: rest => firstTruthy rest
  | some v :: rest => if jTruthy v then v else firstTruthy rest

/-- An opened `.var` archive as the scanner observes it.
`zipOk` is whether `zipfile.ZipFile(path)` succeeds; `metaJson` is `none`
when the archive has no `meta.json` entry (`z.read` raises), `some none` when
the entry is present but `json.loads` fails on it, and `some (some v)` when
it parses to `v`; `fileData` is `z.read` on inner paths. -/
structure VarArchive where
  zipOk : Bool
  metaJson : Option (Option JValue)
  namelist : List Str
  fileData : Str → Option Str

/-- `_read_meta_json` followed by the first `meta.get(...)` use: a missing
`meta.json` raises out of `_read_meta_json` (caught by the scan's outer
`except`), an unparsable one yields `{}`, and a parse result that is not a
JSON object raises at the first `meta.get` call (also caught by the outer
`except`). -/
def metaDict (a : VarArchive) : Except Unit (List (Str × JValue)) :=
  match a.metaJson with
  | none => .error ()
  | some none => .ok []
  | some (some (.jobj fs)) => .ok fs
  | some (some _) => .error ()

/-- `_extract_dependencies` (`core/scanner.py`). -/
def extract_dependencies (meta : List (Str × JValue)) : List Str :=
  match jGet meta "dependencies".data with
  | none => []
  | some (.jobj fs) => fs.map (fun kv => kv.1)
  | some (.jarr xs) => xs.filterMap jPrimStr
  | some v => match jPrimStr v with
    | some s => [s]
    | none => []

/-- One entry of a content list: a non-blank string, or an object whose
`path`/`name`/`file` field is a non-blank string. -/
def entryToPath (x : JValue) : Option Str :=
  match x with
  | .jstr s => if pyStrip s ≠ [] then some (pyStrip (pyReplace s '\\' '/')) else none
  | .jobj fs =>
    match firstTruthy [jGet fs "path".data, jGet fs "name".data, jGet fs "file".data] with
    | .jstr s => if pyStrip s ≠ [] then some (pyStrip (pyReplace s '\\' '/')) else none
    | _ => none
  | _ => none

/-- The `isinstance(cl, dict)` arm of `_extract_content_list`: accumulate over
the alternative keys, returning as soon as the accumulator is non-empty after
a list-valued key; fall through to `[]`. -/
def dictContentLoop (fs : List (Str × JValue)) (acc : List Str) :
    List Str → List Str
  | [] => []
  | k :: rest =>
    match jGet fs k with
    | some (.jarr xs) =>
      let acc2 := acc ++ xs.filterMap entryToPath
      if acc2 ≠ [] then acc2 else dictContentLoop fs acc2 rest
    | _ => dictContentLoop fs acc rest

/-- `cl = meta.get(k1); if cl is None: cl = meta.get(k2); ...` — the first
present, non-`null` value (a JSON `null` is Python `None`). -/
def firstTruthy' : List (Option JValue) → Option JValue
  | [] => none
  | none :: rest => firstTruthy' rest
  | some .null :: rest => firstTruthy' rest
  | some v :: _ => some v

/-- `_extract_content_list` (`core/scanner.py`). -/
def extract_content_list (meta : List (Str × JValue)) : List Str :=
  let cl := firstTruthy'
    [jGet meta "contentList".data, jGet meta "content_list".data,
     jGet meta "content".data, jGet meta "files".data, jGet meta "fileList".data]
  match cl with
  | some (.jarr xs) => xs.filterMap entryToPath
  | some (.jobj fs) =>
    dictContentLoop fs []
      ["items".data, "list".data, "contentList".data, "files".data]
  | _ => []

/-- Python `pathlib.PurePath(s).stem`: final component minus its last suffix
(a leading dot alone does not start a suffix). -/
def pyStem (s : Str) : Str :=
  match pyBasename s with
  | [] => []
  | c :: rest =>
    if '.' ∈ rest then c :: ((rest.reverse.dropWhile (fun x => x ≠ '.')).drop 1).reverse
    else c :: rest

/-- `_hidden_scene_names` (`core/scanner.py`): stems of `.hide` sidecars under
`Saves/scene/`. -/
def hidden_scene_names (paths : List Str) : List Str :=
  paths.filterMap (fun p =>
    let lp := pyLower (pyReplace p '\\' '/')
    if ¬ pyStartsWith lp "saves/scene/".data then none
    else if pyEndsWith lp ".json.hide".data then some (pyStem (pyDropRight lp 5))
    else if pyEndsWith lp ".hide".data then some (pyStem (pyDropRight lp 5))
    else none)

/-- `_scene_names_from_paths` (`core/scanner.py`). -/
def scene_names_from_paths (paths : List Str) (include_hidden : Bool) : List Str :=
  let hidden := if include_hidden then [] else hidden_scene_names paths
  let scenes := paths.filterMap (fun p =>
    let lp := pyLower (pyReplace p '\\' '/')
    if ¬ pyStartsWith lp "saves/scene/".data then none
    else if ¬ pyEndsWith lp ".json".data then none
    else
      let name := pyStem lp
      if pyLower name = "default".data then none
      else if name ∈ hidden then none
      else some name)
  (pyDedup scenes).mergeSort (fun a b => strLe (pyLower a) (pyLower b))

/-- `_has_scene_json` (`core/scanner.py`). -/
def has_scene_json (paths : List Str) : Bool :=
  paths.any (fun p =>
    let lp := pyLower (pyReplace p '\\' '/')
    pyStartsWith lp "saves/scene/".data && pyEndsWith lp ".json".data)

/-- `_preview_path_for_scene` (`core/scanner.py`). -/
def preview_path_for_scene (content_list : List Str) (scene_name : Str) : Str :=
  let scene_lower := pyLower scene_name
  content_list.foldl (fun best p =>
    let lp := pyLower (pyReplace p '\\' '/')
    if ¬ pyStartsWith lp "saves/scene/".data then best
    else if ¬ (pyEndsWith lp ".png".data || pyEndsWith lp ".jpg".data ||
        pyEndsWith lp ".jpeg".data) then best
    else if pyStem lp ≠ scene_lower then best
    else if best = [] then p
    else if pyEndsWith (pyLower best) ".jpg".data && pyEndsWith lp ".png".data then p
    else best) []

/-- `_scene_json_path_for_scene` (`core/scanner.py`). -/
def scene_json_path_for_scene (content_list : List Str) (scene_name : Str) : Str :=
  let scene_lower := pyLower scene_name
  (content_list.find? (fun p =>
    let lp := pyLower (pyReplace p '\\' '/')
    pyStartsWith lp "saves/scene/".data && pyEndsWith lp ".json".data &&
      pyStem lp = scene_lower)).getD []

/-- One scene record of `scan_var_meta_only`. -/
structure SceneOut where
  scene_name : Str
  preview_path : Str
  scene_path : Str
deriving DecidableEq

/-- One scene record of `scan_var_meta_with_previews`. -/
structure SceneOutPrev where
  scene_name : Str
  preview_path : Str
  scene_path : Str
  preview_bytes : Option Str
deriving DecidableEq

/-- The scanner's output record.  `creator`/`package_name` are `none` when the
corresponding keys were never assigned (the `except` path leaves the initial
`{"dependencies": [], "scenes": []}` record). -/
structure ScanOut where
  dependencies : List Str
  scenes : List SceneOut
  creator : Option Str
  package_name : Option Str
deriving DecidableEq

/-- Ditto for the eager-preview scan. -/
structure ScanOutPrev where
  dependencies : List Str
  scenes : List SceneOutPrev
  creator : Option Str
  package_name : Option Str
deriving DecidableEq

/-- The record returned when the scan body raised. -/
def emptyScan : ScanOut := ⟨[], [], none, none⟩

/-- Ditto for the eager-preview scan. -/
def emptyScanPrev : ScanOutPrev := ⟨[], [], none, none⟩

/-- The deduplicated path list built by both scan functions.  The source has
two branches (`_has_scene_json(content_list)` or not) whose bodies coincide,
because `content_list` is already a list of strings. -/
def scanPaths (content_list names : List Str) : List Str :=
  if has_scene_json content_list then pyDedup (content_list ++ names)
  else pyDedup (content_list ++ names)

/-- `scan_var_meta_only` (`core/scanner.py`).  The argument is the archive at
the (already `_open_existing_var`-resolved) path, `none` if no file is there;
any exception inside the `try` returns the initial empty record. -/
def scan_var_meta_only (a : Option VarArchive) (include_hidden : Bool := true) :
    ScanOut :=
  match a with
  | none => emptyScan
  | some ar =>
    if ¬ ar.zipOk then emptyScan
    else match metaDict ar with
    | .error _ => emptyScan
    | .ok meta =>
      let content_list := extract_content_list meta
      let names := if has_scene_json content_list then [] else ar.namelist
      let deps := extract_dependencies meta
      let paths := scanPaths content_list names
      let scenes := (scene_names_from_paths paths include_hidden).map (fun s =>
        ⟨s, preview_path_for_scene paths s, scene_json_path_for_scene paths s⟩)
      ⟨deps, scenes,
        some (jStr (firstTruthy [jGet meta "creator".data, jGet meta "author".data])),
        some (jStr (firstTruthy
          [jGet meta "packageName".data, jGet meta "name".data]))⟩

/-- `scan_var_meta_with_previews` (`core/scanner.py`): same pass, but preview
bytes are read eagerly (a failing inner read degrades to `none` locally). -/
def scan_var_meta_with_previews (a : Option VarArchive)
    (include_hidden : Bool := true) : ScanOutPrev :=
  match a with
  | none => emptyScanPrev
  | some ar =>
    if ¬ ar.zipOk then emptyScanPrev
    else match metaDict ar with
    | .error _ => emptyScanPrev
    | .ok meta =>
      let content_list := extract_content_list meta
      let names := if has_scene_json content_list then [] else ar.namelist
      let deps := extract_dependencies meta
      let paths := scanPaths content_list names
      let scenes := (scene_names_from_paths paths include_hidden).map (fun s =>
        let preview_path := preview_path_for_scene paths s
        let preview_bytes :=
          if preview_path ≠ [] then ar.fileData preview_path else none
        ⟨s, preview_path, scene_json_path_for_scene paths s, preview_bytes⟩)
      ⟨deps, scenes,
        some (jStr (firstTruthy [jGet meta "creator".data, jGet meta "author".data])),
        some (jStr (firstTruthy
          [jGet meta "packageName".data, jGet meta "name".data]))⟩

/-- `_open_existing_var` (`core/scanner.py`): prefer the enabled path, fall
back to the `.disabled` sibling.  `sfs` is the directory contents: the archive
found at each path, if any. -/
def open_existing_var (sfs : Str → Option VarArchive) (p : Str) : Str :=
  if (sfs p).isSome then p
  else if (sfs (p ++ ".disabled".data)).isSome then p ++ ".disabled".data
  else p

/-- `scan_var_meta_only` applied to a path on disk. -/
def scan_var_meta_only_at (sfs : Str → Option VarArchive) (p : Str)
    (include_hidden : Bool := true) : ScanOut :=
  scan_var_meta_only (sfs (open_existing_var sfs p)) include_hidden

/-- `scan_var_meta_with_previews` applied to a path on disk. -/
def scan_var_meta_with_previews_at (sfs : Str → Option VarArchive) (p : Str)
    (include_hidden : Bool := true) : ScanOutPrev :=
  scan_var_meta_with_previews (sfs (open_existing_var sfs p)) include_hidden

/-- `read_file_from_var` (`core/scanner.py`). -/
def read_file_from_var (sfs : Str → Option VarArchive) (p inner : Str) :
    Option Str :=
  if inner = [] then none
  else match sfs (open_existing_var sfs p) with
  | none => none
  | some ar => if ¬ ar.zipOk then none else ar.fileData inner

/-- **C7 (amended).** The meta-only scan is total and never propagates an
error: a missing or unreadable archive, a corrupt zip, or a missing
`meta.json` yields the empty record (no dependencies, no scenes); a non-UTF8
or otherwise malformed `meta.json` yields an empty dependency list (scenes
are then still discovered from the zip entry listing). -/
theorem c7_scan_degrades_to_empty :
    ∀ (ar : VarArchive) (ih : Bool),
      scan_var_meta_only none ih = emptyScan ∧
      (ar.zipOk = false → scan_var_meta_only (some ar) ih = emptyScan) ∧
      (ar.metaJson = none → scan_var_meta_only (some ar) ih = emptyScan) ∧
      (ar.metaJson = some none →
        (scan_var_meta_only (some ar) ih).dependencies = []) := by
  intro ar ih
  refine ⟨rfl, ?_, ?_, ?_⟩
  · intro h
    simp [scan_var_meta_only, h]
  · intro h
    simp [scan_var_meta_only, metaDict, h]
  · intro h
    by_cases hz : ar.zipOk
    · simp [scan_var_meta_only, metaDict, h, hz, extract_dependencies, jGet]
    · simp [scan_var_meta_only, hz, emptyScan]

/-- An archive whose `meta.json` is present but unparsable, with a scene
document in the zip listing. -/
def c7arch : VarArchive :=
  ⟨true, some none, ["Saves/scene/foo.json".data], fun _ => none⟩

/-- **C7 counterexample.** A malformed `meta.json` does not give an empty
scene list: the scan still derives scenes from the zip namelist, so the claim
that all manifest failures yield an empty scene list is false. -/
theorem c7_counterexample :
    c7arch.metaJson = some none ∧
      (scan_var_meta_only (some c7arch) true).scenes ≠ [] := by
  constructor
  · rfl
  · simp +decide [scan_var_meta_only, c7arch, metaDict, extract_content_list,
      firstTruthy', jGet, has_scene_json, scanPaths, pyDedup,
      scene_names_from_paths, hidden_scene_names, pyStem, pyBasename, pyLower,
      pyReplace, pyStartsWith, pyEndsWith, List.mergeSort, strLe, strLt,
      preview_path_for_scene, scene_json_path_for_scene, emptyScan]

theorem c7_witness :
    c7arch.zipOk = true ∧ c7arch.metaJson = some none ∧
      (scan_var_meta_only (some c7arch) true).dependencies = [] :=
  ⟨rfl, rfl, (c7_scan_degrades_to_empty c7arch true).2.2.2 rfl⟩

/-- **C9.** Disabled packages are scanned transparently: if nothing is at `p`
but an archive is at `p + ".disabled"`, every scanner entry point returns
exactly what it would return with the same archive located at `p`. -/
theorem c9_disabled_scanned_transparently :
    ∀ (sfs sfs2 : Str → Option VarArchive) (p : Str) (ar : VarArchive) (ih : Bool),
      sfs p = none → sfs (p ++ ".disabled".data) = some ar → sfs2 p = some ar →
      scan_var_meta_only_at sfs p ih = scan_var_meta_only_at sfs2 p ih ∧
      scan_var_meta_with_previews_at sfs p ih =
        scan_var_meta_with_previews_at sfs2 p ih ∧
      ∀ inner, read_file_from_var sfs p inner = read_file_from_var sfs2 p inner := by
  intro sfs sfs2 p ar ih h1 h2 h3
  have ho : open_existing_var sfs p = p ++ ".disabled".data := by
    simp [open_existing_var, h1, h2]
  have ho2 : open_existing_var sfs2 p = p := by
    simp [open_existing_var, h3]
  refine ⟨?_, ?_, ?_⟩
  · rw [scan_var_meta_only_at, scan_var_meta_only_at, ho, ho2, h2, h3]
  · rw [scan_var_meta_with_previews_at, scan_var_meta_with_previews_at, ho, ho2,
      h2, h3]
  · intro inner
    rw [read_file_from_var, read_file_from_var, ho, ho2, h2, h3]

def c9fs : Str → Option VarArchive :=
  fun q => if q = "X.var".data ++ ".disabled".data then some c7arch else none

def c9fs2 : Str → Option VarArchive :=
  fun q => if q = "X.var".data then some c7arch else none

theorem c9_witness :
    (c9fs "X.var".data = none ∧
      c9fs ("X.var".data ++ ".disabled".data) = some c7arch ∧
      c9fs2 "X.var".data = some c7arch) ∧
    scan_var_meta_only_at c9fs "X.var".data true =
      scan_var_meta_only_at c9fs2 "X.var".data true :=
  ⟨⟨by rfl, by rfl, by rfl⟩,
    (c9_disabled_scanned_transparently c9fs c9fs2 "X.var".data c7arch true
      (by rfl) (by rfl) (by rfl)).1⟩

/-! ## Activation engine (`gui_qt.py`)

The `AddonPackages` directory is modelled flat: an association list from
relative file names to opaque content identifiers.  A rename moves a binding
from one name to another; content is never copied or dropped. -/

abbrev FS := List (Str × Nat)

def fsGet : FS → Str → Option Nat
  | [], _ => none
  | (q, c) :: rest, p => if q = p then some c else fsGet rest p

/-- `Path.exists`. -/
def fsExists (fs : FS) (p : Str) : Bool := (fsGet fs p).isSome

def fsErase (fs : FS) (p : Str) : FS := fs.filter (fun e => e.1 ≠ p)

/-- `os.rename src dst` (callers guard `src` existing and `dst` free). -/
def fsRename (fs : FS) (src dst : Str) : FS :=
  match fsGet fs src with
  | none => fs
  | some c => (dst, c) :: fsErase fs src

/-- `fast_list_vars_all_states` (`gui_qt.py`): `(orig_name, actual_path)` for
every `*.var` (enabled) and `*.var.disabled` (disabled, normalised by
stripping the suffix) file, in listing order. -/
def fastListAllStates (fs : FS) : List (Str × Str) :=
  fs.filterMap (fun e =>
    let name := e.1
    if pyEndsWith (pyLower name) ".var".data then some (name, name)
    else if pyEndsWith (pyLower name) ".var.disabled".data then
      some (pyDropRight name ((".disabled".data).length), name)
    else none)

/-- One entry of the manifest's `renamed` list.  `mfrom`/`mto` model the
`"from"`/`"to"` fields; the empty string stands for an absent key (reads go
through `item.get(k1) or item.get(k2)` truthiness chains). -/
structure MEntry where
  mfrom : Str
  mto : Str
  from_rel : Str
  to_rel : Str
deriving DecidableEq

/-- `item.get("to_rel") or item.get("to")`. -/
def srcName (e : MEntry) : Str := if e.to_rel ≠ [] then e.to_rel else e.mto

/-- `item.get("from_rel") or item.get("from")`. -/
def dstName (e : MEntry) : Str := if e.from_rel ≠ [] then e.from_rel else e.mfrom

/-- The body of `disable_unrelated_vars_by_rename` over the pre-computed
listing, threading the directory; returns the directory, the `renamed`
entries and the `failed` names, in source order. -/
def disableLoop (keep : List Str) (fs : FS) :
    List (Str × Str) → FS × List MEntry × List Str
  | [] => (fs, [], [])
  | (orig, actual) :: rest =>
    if ¬ pyEndsWith (pyLower actual) ".var".data then disableLoop keep fs rest
    else if orig ∈ keep then disableLoop keep fs rest
    else
      let dst := orig ++ ".disabled".data
      if fsExists fs dst then disableLoop keep fs rest
      else if fsExists fs actual then
        let r := disableLoop keep (fsRename fs actual dst) rest
        (r.1, ⟨orig, dst, actual, dst⟩ :: r.2.1, r.2.2)
      else
        let r := disableLoop keep fs rest
        (r.1, r.2.1, orig :: r.2.2)

/-- The loop of `restore_offloaded_vars` over the manifest's `renamed` list:
rename tracked files back (`to_rel → from_rel`) when the slot is free. -/
def restoreLoop (fs : FS) : List MEntry → FS × Nat
  | [] => (fs, 0)
  | item :: rest =>
    if srcName item = [] ∨ dstName item = [] then restoreLoop fs rest
    else if fsExists fs (srcName item) && !(fsExists fs (dstName item)) then
      let r := restoreLoop (fsRename fs (srcName item) (dstName item)) rest
      (r.1, r.2 + 1)
    else restoreLoop fs rest

/-- On-disk session state: flat `AddonPackages` listing plus the persisted
manifest (`none` = no manifest file; constant manifest header fields are
elided). -/
structure Disk where
  fs : FS
  manifest : Option (List MEntry)

/-- `disable_unrelated_vars_by_rename` (`gui_qt.py`): disable every enabled
var not in the keep set, write a fresh manifest; also returns `failed`. -/
def disableUnrelated (d : Disk) (keep : List Str) : Disk × List Str :=
  let r := disableLoop keep d.fs (fastListAllStates d.fs)
  (⟨r.1, some r.2.1⟩, r.2.2)

/-- `restore_offloaded_vars` (`gui_qt.py`): rename every tracked file back
when possible, then delete the manifest file. -/
def restoreAll (d : Disk) : Disk × Nat :=
  match d.manifest with
  | none => (d, 0)
  | some m =>
    let r := restoreLoop d.fs m
    (⟨r.1, none⟩, r.2)

/-- The `tool_items` normalisation at the top of `_apply_keep_set_live`. -/
def parseToolItems (renamed : List MEntry) : List MEntry :=
  renamed.filterMap (fun item =>
    let src_rel := srcName item
    let dst_rel := dstName item
    if src_rel = [] ∨ dst_rel = [] then none
    else some ⟨pyBasename dst_rel, [], dst_rel, src_rel⟩)

/-- Phase 1 of `_apply_keep_set_live`: restore tool-disabled vars now in the
keep set; everything not restored stays in `remaining`. -/
def phase1 (keep : List Str) (fs : FS) :
    List MEntry → FS × List MEntry × Nat
  | [] => (fs, [], 0)
  | item :: rest =>
    if item.mfrom ∉ keep then
      let r := phase1 keep fs rest
      (r.1, item :: r.2.1, r.2.2)
    else if fsExists fs item.to_rel && !(fsExists fs item.from_rel) then
      let r := phase1 keep (fsRename fs item.to_rel item.from_rel) rest
      (r.1, r.2.1, r.2.2 + 1)
    else
      let r := phase1 keep fs rest
      (r.1, item :: r.2.1, r.2.2)

/-- Phase 2 of `_apply_keep_set_live`: disable enabled vars not in the keep
set and not already tracked (`dbt` = `disabled_by_tool`); returns the
directory, the appended manifest entries, the disabled count and `failed`. -/
def phase2 (keep dbt : List Str) (fs : FS) :
    List (Str × Str) → FS × List MEntry × Nat × List Str
  | [] => (fs, [], 0, [])
  | (orig, actual) :: rest =>
    if ¬ pyEndsWith (pyLower actual) ".var".data then phase2 keep dbt fs rest
    else if orig ∈ keep then phase2 keep dbt fs rest
    else if orig ∈ dbt then phase2 keep dbt fs rest
    else
      let dst := orig ++ ".disabled".data
      if fsExists fs dst then phase2 keep dbt fs rest
      else if fsExists fs actual then
        let r := phase2 keep dbt (fsRename fs actual dst) rest
        (r.1, ⟨orig, [], actual, dst⟩ :: r.2.1, r.2.2.1 + 1, r.2.2.2)
      else
        let r := phase2 keep dbt fs rest
        (r.1, r.2.1, r.2.2.1, orig :: r.2.2.2)

/-- `MainWindow._apply_keep_set_live` (`gui_qt.py`): returns the updated disk
state and `(disabled_count, restored_count)`. -/
def applyKeepSetLive (d : Disk) (keep : List Str) : Disk × Nat × Nat :=
  let tool_items := parseToolItems (d.manifest.getD [])
  let r1 := phase1 keep d.fs tool_items
  let dbt := r1.2.1.filterMap (fun i => if i.mfrom ≠ [] then some i.mfrom else none)
  let r2 := phase2 keep dbt r1.1 (fastListAllStates r1.1)
  let remaining := r1.2.1 ++ r2.2.1
  let manifest2 := remaining.map (fun i =>
    MEntry.mk i.mfrom (pyBasename i.to_rel) i.from_rel i.to_rel)
  (⟨r2.1, some manifest2⟩, r2.2.2.1, r1.2.2)

theorem pyLower_append (s t : Str) : pyLower (s ++ t) = pyLower s ++ pyLower t :=
  List.map_append _ s t

/-- A name carrying the `.disabled` suffix never (case-insensitively) ends in
`.var`. -/
theorem disabled_not_var (x : Str) :
    pyEndsWith (pyLower (x ++ ".disabled".data)) ".var".data = false := by
  rw [pyLower_append]
  have h : pyLower ".disabled".data = ".disabled".data := by decide
  rw [h, pyEndsWith_append_of_le _ _ _ (by decide)]
  decide

/-- Appending `.disabled` is injective. -/
theorem disabled_append_inj (x y : Str)
    (h : x ++ ".disabled".data = y ++ ".disabled".data) : x = y :=
  List.append_cancel_right h

/-- A (case-insensitive) `.var` name never carries the `.disabled` suffix. -/
theorem var_ne_disabled (a x : Str)
    (ha : pyEndsWith (pyLower a) ".var".data = true) :
    a ≠ x ++ ".disabled".data := by
  intro h
  rw [h, disabled_not_var] at ha
  cases ha

/-- A (case-insensitive) `.var` name is nonempty. -/
theorem var_ne_nil (a : Str) (ha : pyEndsWith (pyLower a) ".var".data = true) :
    a ≠ [] := by
  intro h
  rw [h] at ha
  cases ha

theorem append_disabled_ne_nil (x : Str) : x ++ ".disabled".data ≠ [] := by
  simp

theorem pyBasename_of_no_slash (s : Str) (h : ('/' : Char) ∉ s) :
    pyBasename s = s := by
  rw [pyBasename, List.takeWhile_eq_self_iff.mpr, List.reverse_reverse]
  intro c hc
  simp only [ne_eq, decide_eq_true_eq]
  rintro rfl
  exact h (List.mem_reverse.mp hc)

theorem no_slash_append (x y : Str) (hx : ('/' : Char) ∉ x)
    (hy : ('/' : Char) ∉ y) : ('/' : Char) ∉ x ++ y := by
  intro h
  rcases List.mem_append.mp h with h' | h'
  · exact hx h'
  · exact hy h'

theorem no_slash_take (x : Str) (n : Nat) (hx : ('/' : Char) ∉ x) :
    ('/' : Char) ∉ x.take n :=
  fun h => hx (List.mem_of_mem_take h)

theorem fsGet_erase_self (fs : FS) (p : Str) : fsGet (fsErase fs p) p = none := by
  induction fs with
  | nil => rfl
  | cons e rest ih =>
    rw [fsErase] at ih ⊢
    rw [List.filter_cons]
    split
    · rename_i h
      simp only [ne_eq, decide_eq_true_eq] at h
      rw [fsGet, if_neg h]
      exact ih
    · exact ih

theorem fsGet_erase_other (fs : FS) (p q : Str) (h : q ≠ p) :
    fsGet (fsErase fs p) q = fsGet fs q := by
  induction fs with
  | nil => rfl
  | cons e rest ih =>
    rw [fsErase] at ih ⊢
    rw [List.filter_cons]
    split
    · rename_i h'
      rcases e with ⟨k, c⟩
      rw [fsGet, fsGet]
      split
      · rfl
      · exact ih
    · rename_i h'
      rcases e with ⟨k, c⟩
      simp only [ne_eq, decide_eq_true_eq, Decidable.not_not] at h'
      rw [fsGet, if_neg]
      · exact ih
      · rw [h']
        exact fun hk => h hk.symm

theorem fsGet_rename_dst (fs : FS) (src dst : Str)
    (hsrc : fsExists fs src = true) :
    fsGet (fsRename fs src dst) dst = fsGet fs src := by
  rw [fsExists, Option.isSome_iff_exists] at hsrc
  rcases hsrc with ⟨c, hc⟩
  rw [fsRename, hc, fsGet, if_pos rfl]

theorem fsGet_rename_src (fs : FS) (src dst : Str) (h : src ≠ dst) :
    fsGet (fsRename fs src dst) src = none := by
  rw [fsRename]
  match hc : fsGet fs src with
  | none => exact hc
  | some c =>
    rw [fsGet, if_neg (fun hh => h hh.symm)]
    exact fsGet_erase_self fs src

theorem fsGet_rename_other (fs : FS) (src dst p : Str) (h1 : p ≠ src)
    (h2 : p ≠ dst) : fsGet (fsRename fs src dst) p = fsGet fs p := by
  rw [fsRename]
  match hc : fsGet fs src with
  | none => rfl
  | some c =>
    rw [fsGet, if_neg (fun hh => h2 hh.symm)]
    exact fsGet_erase_other fs src p h1

theorem fsExists_iff_mem_keys (fs : FS) (p : Str) :
    fsExists fs p = true ↔ p ∈ fs.map Prod.fst := by
  induction fs with
  | nil => simp [fsExists, fsGet]
  | cons e rest ih =>
    rcases e with ⟨k, c⟩
    rw [fsExists, fsGet]
    by_cases hk : k = p
    · subst hk
      simp
    · rw [if_neg hk]
      simp only [List.map_cons, List.mem_cons]
      rw [← ih, fsExists]
      constructor
      · exact fun h => Or.inr h
      · rintro (h | h)
        · exact absurd h.symm hk
        · exact h

theorem fastList_mem_spec (fs : FS) (orig actual : Str)
    (h : (orig, actual) ∈ fastListAllStates fs) :
    fsExists fs actual = true ∧
      ((pyEndsWith (pyLower actual) ".var".data = true ∧ orig = actual) ∨
        (pyEndsWith (pyLower actual) ".var".data = false ∧
          pyEndsWith (pyLower actual) ".var.disabled".data = true ∧
          orig = pyDropRight actual ((".disabled".data).length))) := by
  rw [fastListAllStates] at h
  rcases List.mem_filterMap.mp h with ⟨e, he, hmap⟩
  rcases e with ⟨k, c⟩
  simp only at hmap
  by_cases h1 : pyEndsWith (pyLower k) ".var".data = true
  · rw [if_pos h1] at hmap
    have h' := Option.some.inj hmap
    injection h' with ha hb
    rw [← ha, ← hb]
    refine ⟨?_, Or.inl ⟨h1, rfl⟩⟩
    rw [fsExists_iff_mem_keys]
    exact List.mem_map.mpr ⟨(k, c), he, rfl⟩
  · rw [if_neg h1] at hmap
    by_cases h2 : pyEndsWith (pyLower k) ".var.disabled".data = true
    · rw [if_pos h2] at hmap
      have h' := Option.some.inj hmap
      injection h' with ha hb
      rw [← ha, ← hb]
      refine ⟨?_, Or.inr ⟨Bool.eq_false_iff.mpr h1, h2, ?_⟩⟩
      · rw [fsExists_iff_mem_keys]
        exact List.mem_map.mpr ⟨(k, c), he, rfl⟩
      · rfl
    · rw [if_neg h2] at hmap
      cases hmap

theorem fastList_mem_of_var (fs : FS) (p : Str)
    (hvar : pyEndsWith (pyLower p) ".var".data = true)
    (hex : fsExists fs p = true) : (p, p) ∈ fastListAllStates fs := by
  rw [fsExists_iff_mem_keys] at hex
  rcases List.mem_map.mp hex with ⟨e, he, hfst⟩
  rw [fastListAllStates]
  refine List.mem_filterMap.mpr ⟨e, he, ?_⟩
  rw [hfst, if_pos hvar]

theorem disableLoop_cons_nonvar (keep : List Str) (fs : FS) (orig actual : Str)
    (rest : List (Str × Str))
    (h1 : pyEndsWith (pyLower actual) ".var".data = false) :
    disableLoop keep fs ((orig, actual) :: rest) = disableLoop keep fs rest := by
  simp [disableLoop, h1]

theorem disableLoop_cons_keep (keep : List Str) (fs : FS) (orig actual : Str)
    (rest : List (Str × Str))
    (h1 : pyEndsWith (pyLower actual) ".var".data = true) (h2 : orig ∈ keep) :
    disableLoop keep fs ((orig, actual) :: rest) = disableLoop keep fs rest := by
  simp [disableLoop, h1, h2]

theorem disableLoop_cons_dst (keep : List Str) (fs : FS) (orig actual : Str)
    (rest : List (Str × Str))
    (h1 : pyEndsWith (pyLower actual) ".var".data = true) (h2 : orig ∉ keep)
    (h3 : fsExists fs (orig ++ ".disabled".data) = true) :
    disableLoop keep fs ((orig, actual) :: rest) = disableLoop keep fs rest := by
  simp [disableLoop, h1, h2, h3]

theorem disableLoop_cons_ren (keep : List Str) (fs : FS) (orig actual : Str)
    (rest : List (Str × Str))
    (h1 : pyEndsWith (pyLower actual) ".var".data = true) (h2 : orig ∉ keep)
    (h3 : fsExists fs (orig ++ ".disabled".data) = false)
    (h4 : fsExists fs actual = true) :
    disableLoop keep fs ((orig, actual) :: rest) =
      ((disableLoop keep (fsRename fs actual (orig ++ ".disabled".data)) rest).1,
        MEntry.mk orig (orig ++ ".disabled".data) actual (orig ++ ".disabled".data) ::
          (disableLoop keep (fsRename fs actual (orig ++ ".disabled".data)) rest).2.1,
        (disableLoop keep (fsRename fs actual (orig ++ ".disabled".data)) rest).2.2) := by
  simp [disableLoop, h1, h2, h3, h4]

theorem disableLoop_cons_fail (keep : List Str) (fs : FS) (orig actual : Str)
    (rest : List (Str × Str))
    (h1 : pyEndsWith (pyLower actual) ".var".data = true) (h2 : orig ∉ keep)
    (h3 : fsExists fs (orig ++ ".disabled".data) = false)
    (h4 : fsExists fs actual = false) :
    disableLoop keep fs ((orig, actual) :: rest) =
      ((disableLoop keep fs rest).1, (disableLoop keep fs rest).2.1,
        orig :: (disableLoop keep fs rest).2.2) := by
  simp [disableLoop, h1, h2, h3, h4]

theorem disableLoop_preserves_nonvar (keep : List Str)
    (items : List (Str × Str)) (fs : FS) (q : Str)
    (hq : pyEndsWith (pyLower q) ".var".data = false)
    (hex : fsExists fs q = true) :
    fsGet (disableLoop keep fs items).1 q = fsGet fs q := by
  induction items generalizing fs with
  | nil => rfl
  | cons it rest ih =>
    rcases it with ⟨orig, actual⟩
    by_cases h1 : pyEndsWith (pyLower actual) ".var".data = true
    case neg =>
      rw [disableLoop_cons_nonvar keep fs orig actual rest
        (Bool.eq_false_iff.mpr h1)]
      exact ih fs hex
    by_cases h2 : orig ∈ keep
    case pos =>
      rw [disableLoop_cons_keep keep fs orig actual rest h1 h2]
      exact ih fs hex
    by_cases h3 : fsExists fs (orig ++ ".disabled".data) = true
    case pos =>
      rw [disableLoop_cons_dst keep fs orig actual rest h1 h2 h3]
      exact ih fs hex
    by_cases h4 : fsExists fs actual = true
    case neg =>
      rw [disableLoop_cons_fail keep fs orig actual rest h1 h2
        (Bool.eq_false_iff.mpr h3) (Bool.eq_false_iff.mpr h4)]
      exact ih fs hex
    case pos =>
      rw [disableLoop_cons_ren keep fs orig actual rest h1 h2
        (Bool.eq_false_iff.mpr h3) h4]
      have hqa : q ≠ actual := by
        intro h
        rw [h, h1] at hq
        cases hq
      have hqd : q ≠ orig ++ ".disabled".data := by
        intro h
        rw [← h, hex] at h3
        exact h3 rfl
      have hstep : fsGet (fsRename fs actual (orig ++ ".disabled".data)) q =
          fsGet fs q := fsGet_rename_other fs _ _ q hqa hqd
      have hex2 : fsExists (fsRename fs actual (orig ++ ".disabled".data)) q =
          true := by
        rw [fsExists, hstep]
        exact hex
      rw [ih _ hex2, hstep]

theorem disableLoop_keeps_var_absent (keep : List Str)
    (items : List (Str × Str)) (fs : FS) (q : Str)
    (hq : pyEndsWith (pyLower q) ".var".data = true)
    (habs : fsExists fs q = false) :
    fsGet (disableLoop keep fs items).1 q = none := by
  induction items generalizing fs with
  | nil =>
    rw [fsExists] at habs
    simpa using habs
  | cons it rest ih =>
    rcases it with ⟨orig, actual⟩
    by_cases h1 : pyEndsWith (pyLower actual) ".var".data = true
    case neg =>
      rw [disableLoop_cons_nonvar keep fs orig actual rest
        (Bool.eq_false_iff.mpr h1)]
      exact ih fs habs
    by_cases h2 : orig ∈ keep
    case pos =>
      rw [disableLoop_cons_keep keep fs orig actual rest h1 h2]
      exact ih fs habs
    by_cases h3 : fsExists fs (orig ++ ".disabled".data) = true
    case pos =>
      rw [disableLoop_cons_dst keep fs orig actual rest h1 h2 h3]
      exact ih fs habs
    by_cases h4 : fsExists fs actual = true
    case neg =>
      rw [disableLoop_cons_fail keep fs orig actual rest h1 h2
        (Bool.eq_false_iff.mpr h3) (Bool.eq_false_iff.mpr h4)]
      exact ih fs habs
    case pos =>
      rw [disableLoop_cons_ren keep fs orig actual rest h1 h2
        (Bool.eq_false_iff.mpr h3) h4]
      have hqa : q ≠ actual := by
        intro h
        rw [← h, habs] at h4
        cases h4
      have hqd : q ≠ orig ++ ".disabled".data := var_ne_disabled q orig hq
      have hstep : fsGet (fsRename fs actual (orig ++ ".disabled".data)) q =
          fsGet fs q := fsGet_rename_other fs _ _ q hqa hqd
      have habs2 : fsExists (fsRename fs actual (orig ++ ".disabled".data)) q =
          false := by
        rw [fsExists, hstep]
        exact habs
      exact ih _ habs2

/-- Shape of a tool-written manifest entry together with the state of its two
paths before and after the cold-disable pass. -/
theorem disableLoop_entries (keep : List Str) (items : List (Str × Str))
    (fs : FS)
    (hitems : ∀ o a, (o, a) ∈ items →
      pyEndsWith (pyLower a) ".var".data = true → o = a) :
    ∀ e ∈ (disableLoop keep fs items).2.1,
      (e.from_rel = e.mfrom ∧ e.mto = e.mfrom ++ ".disabled".data ∧
        e.to_rel = e.mfrom ++ ".disabled".data ∧
        pyEndsWith (pyLower e.mfrom) ".var".data = true ∧ e.mfrom ∉ keep) ∧
      fsExists fs e.from_rel = true ∧ fsExists fs e.to_rel = false ∧
      fsExists (disableLoop keep fs items).1 e.to_rel = true ∧
      fsExists (disableLoop keep fs items).1 e.from_rel = false := by
  induction items generalizing fs with
  | nil => intro e he; cases he
  | cons it rest ih =>
    rcases it with ⟨orig, actual⟩
    have hitems' : ∀ o a, (o, a) ∈ rest →
        pyEndsWith (pyLower a) ".var".data = true → o = a :=
      fun o a h => hitems o a (List.mem_cons_of_mem _ h)
    by_cases h1 : pyEndsWith (pyLower actual) ".var".data = true
    case neg =>
      rw [disableLoop_cons_nonvar keep fs orig actual rest
        (Bool.eq_false_iff.mpr h1)]
      exact ih fs hitems'
    by_cases h2 : orig ∈ keep
    case pos =>
      rw [disableLoop_cons_keep keep fs orig actual rest h1 h2]
      exact ih fs hitems'
    by_cases h3 : fsExists fs (orig ++ ".disabled".data) = true
    case pos =>
      rw [disableLoop_cons_dst keep fs orig actual rest h1 h2 h3]
      exact ih fs hitems'
    by_cases h4 : fsExists fs actual = true
    case neg =>
      rw [disableLoop_cons_fail keep fs orig actual rest h1 h2
        (Bool.eq_false_iff.mpr h3) (Bool.eq_false_iff.mpr h4)]
      exact ih fs hitems'
    case pos =>
      have horig : orig = actual := hitems orig actual (List.mem_cons_self _ _) h1
      subst horig
      have h3f : fsExists fs (orig ++ ".disabled".data) = false :=
        Bool.eq_false_iff.mpr h3
      rw [disableLoop_cons_ren keep fs orig orig rest h1 h2 h3f h4]
      set fs1 := fsRename fs orig (orig ++ ".disabled".data) with hfs1
      have hdstget : fsGet fs1 (orig ++ ".disabled".data) = fsGet fs orig :=
        fsGet_rename_dst fs orig _ h4
      have hsrcget : fsGet fs1 orig = none :=
        fsGet_rename_src fs orig _ (var_ne_disabled orig orig h1)
      intro e he
      rcases List.mem_cons.mp he with rfl | he'
      · refine ⟨⟨rfl, rfl, rfl, h1, h2⟩, h4, h3f, ?_, ?_⟩
        · have hex1 : fsExists fs1 (orig ++ ".disabled".data) = true := by
            rw [fsExists, hdstget]
            exact h4
          rw [fsExists, disableLoop_preserves_nonvar keep rest fs1 _
            (disabled_not_var orig) hex1, hdstget]
          exact h4
        · have habs1 : fsExists fs1 orig = false := by
            rw [fsExists, hsrcget]
            rfl
          rw [fsExists, disableLoop_keeps_var_absent keep rest fs1 orig h1 habs1]
          rfl
      · rcases ih fs1 hitems' e he' with
          ⟨⟨hsh1, hsh2, hsh3, hsh4, hsh5⟩, hin1, hin2, hfin1, hfin2⟩
        refine ⟨⟨hsh1, hsh2, hsh3, hsh4, hsh5⟩, ?_, ?_, hfin1, hfin2⟩
        · rw [hsh1] at hin1 ⊢
          have hne1 : e.mfrom ≠ orig ++ ".disabled".data :=
            var_ne_disabled e.mfrom orig hsh4
          have hne2 : e.mfrom ≠ orig := by
            intro h
            rw [fsExists, h, hsrcget] at hin1
            cases hin1
          rw [fsExists, fsGet_rename_other fs _ _ _ hne2 hne1] at hin1
          exact hin1
        · rw [hsh3] at hin2 ⊢
          have hne1 : e.mfrom ++ ".disabled".data ≠ orig := by
            intro h
            rw [← h] at h1
            rw [disabled_not_var] at h1
            cases h1
          have hne2 : e.mfrom ++ ".disabled".data ≠ orig ++ ".disabled".data := by
            intro h
            have heq := disabled_append_inj _ _ h
            have hx : fsExists fs1 (orig ++ ".disabled".data) = true := by
              rw [fsExists, hdstget]
              exact h4
            rw [heq, hx] at hin2
            cases hin2
          rw [fsExists, fsGet_rename_other fs _ _ _ hne1 hne2] at hin2
          exact hin2

theorem restoreLoop_cons_empty (fs : FS) (item : MEntry) (rest : List MEntry)
    (h : srcName item = [] ∨ dstName item = []) :
    restoreLoop fs (item :: rest) = restoreLoop fs rest := by
  simp only [restoreLoop, if_pos h]

theorem restoreLoop_cons_ren (fs : FS) (item : MEntry) (rest : List MEntry)
    (h : ¬(srcName item = [] ∨ dstName item = []))
    (hs : fsExists fs (srcName item) = true)
    (hd : fsExists fs (dstName item) = false) :
    restoreLoop fs (item :: rest) =
      ((restoreLoop (fsRename fs (srcName item) (dstName item)) rest).1,
        (restoreLoop (fsRename fs (srcName item) (dstName item)) rest).2 + 1) := by
  simp [restoreLoop, h, hs, hd]

theorem restoreLoop_cons_skip (fs : FS) (item : MEntry) (rest : List MEntry)
    (h : ¬(srcName item = [] ∨ dstName item = []))
    (hg : ¬(fsExists fs (srcName item) = true ∧
      fsExists fs (dstName item) = false)) :
    restoreLoop fs (item :: rest) = restoreLoop fs rest := by
  simp only [restoreLoop, if_neg h]
  rw [if_neg]
  intro hx
  rw [Bool.and_eq_true, Bool.not_eq_true'] at hx
  exact hg hx

/-- The names a restore pass reads or writes. -/
def touchList : List MEntry → List Str
  | [] => []
  | e :: rest => srcName e :: dstName e :: touchList rest

theorem restoreLoop_frame (ents : List MEntry) (fs : FS) (q : Str)
    (hq : q ∉ touchList ents) :
    fsGet (restoreLoop fs ents).1 q = fsGet fs q := by
  induction ents generalizing fs with
  | nil => rfl
  | cons item rest ih =>
    have hq1 : q ≠ srcName item := by
      intro h
      exact hq (h ▸ List.mem_cons_self _ _)
    have hq2 : q ≠ dstName item := by
      intro h
      refine hq (List.mem_cons_of_mem _ ?_)
      exact h ▸ List.mem_cons_self _ _
    have hq' : q ∉ touchList rest := by
      intro h
      exact hq (List.mem_cons_of_mem _ (List.mem_cons_of_mem _ h))
    by_cases h : srcName item = [] ∨ dstName item = []
    · rw [restoreLoop_cons_empty fs item rest h]
      exact ih fs hq'
    by_cases hg : fsExists fs (srcName item) = true ∧
        fsExists fs (dstName item) = false
    · rw [restoreLoop_cons_ren fs item rest h hg.1 hg.2]
      rw [ih _ hq', fsGet_rename_other fs _ _ q hq1 hq2]
    · rw [restoreLoop_cons_skip fs item rest h hg]
      exact ih fs hq'

theorem restoreLoop_congr (ents : List MEntry) (T : List Str)
    (fsA fsB : FS) (hag : ∀ q ∈ T, fsGet fsA q = fsGet fsB q)
    (hsub : ∀ q ∈ touchList ents, q ∈ T) :
    ∀ q ∈ T, fsGet (restoreLoop fsA ents).1 q = fsGet (restoreLoop fsB ents).1 q := by
  induction ents generalizing fsA fsB with
  | nil => exact hag
  | cons item rest ih =>
    have hsrcT : srcName item ∈ T := hsub _ (List.mem_cons_self _ _)
    have hdstT : dstName item ∈ T :=
      hsub _ (List.mem_cons_of_mem _ (List.mem_cons_self _ _))
    have hsub' : ∀ q ∈ touchList rest, q ∈ T := fun q h =>
      hsub q (List.mem_cons_of_mem _ (List.mem_cons_of_mem _ h))
    have hsrc_eq : fsGet fsA (srcName item) = fsGet fsB (srcName item) :=
      hag _ hsrcT
    have hdst_eq : fsGet fsA (dstName item) = fsGet fsB (dstName item) :=
      hag _ hdstT
    by_cases h : srcName item = [] ∨ dstName item = []
    · rw [restoreLoop_cons_empty fsA item rest h,
        restoreLoop_cons_empty fsB item rest h]
      exact ih fsA fsB hag hsub'
    by_cases hg : fsExists fsA (srcName item) = true ∧
        fsExists fsA (dstName item) = false
    · have hgB : fsExists fsB (srcName item) = true ∧
          fsExists fsB (dstName item) = false := by
        constructor
        · rw [fsExists, ← hsrc_eq]
          exact hg.1
        · rw [fsExists, ← hdst_eq]
          exact hg.2
      rw [restoreLoop_cons_ren fsA item rest h hg.1 hg.2,
        restoreLoop_cons_ren fsB item rest h hgB.1 hgB.2]
      have hne : srcName item ≠ dstName item := by
        intro hx
        rw [hx, hg.2] at hg
        exact absurd hg.1 (by simp [hg.2])
      refine ih _ _ ?_ hsub'
      intro q hqT
      by_cases hq1 : q = dstName item
      · subst hq1
        rw [fsGet_rename_dst fsA _ _ hg.1, fsGet_rename_dst fsB _ _ hgB.1]
        exact hsrc_eq
      by_cases hq2 : q = srcName item
      · subst hq2
        rw [fsGet_rename_src fsA _ _ hne, fsGet_rename_src fsB _ _ hne]
      · rw [fsGet_rename_other fsA _ _ q hq2 hq1,
          fsGet_rename_other fsB _ _ q hq2 hq1]
        exact hag q hqT
    · have hgB : ¬(fsExists fsB (srcName item) = true ∧
          fsExists fsB (dstName item) = false) := by
        intro hx
        refine hg ⟨?_, ?_⟩
        · rw [fsExists, hsrc_eq]
          exact hx.1
        · rw [fsExists, hdst_eq]
          exact hx.2
      rw [restoreLoop_cons_skip fsA item rest h hg,
        restoreLoop_cons_skip fsB item rest h hgB]
      exact ih fsA fsB hag hsub'

theorem touchList_mem (ents : List MEntry) (q : Str) (hq : q ∈ touchList ents) :
    ∃ e ∈ ents, q = srcName e ∨ q = dstName e := by
  induction ents with
  | nil => cases hq
  | cons e rest ih =>
    rw [touchList] at hq
    rcases List.mem_cons.mp hq with rfl | hq'
    · exact ⟨e, List.mem_cons_self _ _, Or.inl rfl⟩
    · rcases List.mem_cons.mp hq' with rfl | hq2
      · exact ⟨e, List.mem_cons_self _ _, Or.inr rfl⟩
      · rcases ih hq2 with ⟨e', he', hsd⟩
        exact ⟨e', List.mem_cons_of_mem _ he', hsd⟩

/-- Cold disable followed by the restore loop over the manifest it produced
returns every binding of the directory to its original state. -/
theorem disable_restore_roundtrip (items : List (Str × Str)) (fs : FS)
    (keep : List Str)
    (hitems : ∀ o a, (o, a) ∈ items →
      pyEndsWith (pyLower a) ".var".data = true → o = a) :
    ∀ p, fsGet (restoreLoop (disableLoop keep fs items).1
      (disableLoop keep fs items).2.1).1 p = fsGet fs p := by
  induction items generalizing fs with
  | nil => intro p; rfl
  | cons it rest ih =>
    rcases it with ⟨orig, actual⟩
    have hitems' : ∀ o a, (o, a) ∈ rest →
        pyEndsWith (pyLower a) ".var".data = true → o = a :=
      fun o a h => hitems o a (List.mem_cons_of_mem _ h)
    by_cases h1 : pyEndsWith (pyLower actual) ".var".data = true
    case neg =>
      rw [disableLoop_cons_nonvar keep fs orig actual rest
        (Bool.eq_false_iff.mpr h1)]
      exact ih fs hitems'
    by_cases h2 : orig ∈ keep
    case pos =>
      rw [disableLoop_cons_keep keep fs orig actual rest h1 h2]
      exact ih fs hitems'
    by_cases h3 : fsExists fs (orig ++ ".disabled".data) = true
    case pos =>
      rw [disableLoop_cons_dst keep fs orig actual rest h1 h2 h3]
      exact ih fs hitems'
    by_cases h4 : fsExists fs actual = true
    case neg =>
      rw [disableLoop_cons_fail keep fs orig actual rest h1 h2
        (Bool.eq_false_iff.mpr h3) (Bool.eq_false_iff.mpr h4)]
      exact ih fs hitems'
    case pos =>
      have horig : orig = actual := hitems orig actual (List.mem_cons_self _ _) h1
      subst horig
      have h3f : fsExists fs (orig ++ ".disabled".data) = false :=
        Bool.eq_false_iff.mpr h3
      rw [disableLoop_cons_ren keep fs orig orig rest h1 h2 h3f h4]
      set dis0 := orig ++ ".disabled".data with hdis0
      set fs1 := fsRename fs orig dis0 with hfs1
      set fsp := (disableLoop keep fs1 rest).1 with hfsp
      set ents' := (disableLoop keep fs1 rest).2.1 with hents
      have hdstget : fsGet fs1 dis0 = fsGet fs orig := fsGet_rename_dst fs orig _ h4
      have hsrcget : fsGet fs1 orig = none :=
        fsGet_rename_src fs orig _ (var_ne_disabled orig orig h1)
      have hs : fsExists fsp dis0 = true := by
        have hex1 : fsExists fs1 dis0 = true := by
          rw [fsExists, hdstget]; exact h4
        rw [hfsp, fsExists, disableLoop_preserves_nonvar keep rest fs1 _
          (disabled_not_var orig) hex1, hdstget]
        exact h4
      have hd : fsExists fsp orig = false := by
        have habs1 : fsExists fs1 orig = false := by
          rw [fsExists, hsrcget]; rfl
        rw [hfsp, fsExists,
          disableLoop_keeps_var_absent keep rest fs1 orig h1 habs1]
        rfl
      have e0src : srcName (MEntry.mk orig dis0 orig dis0) = dis0 := by
        simp [srcName]
      have e0dst : dstName (MEntry.mk orig dis0 orig dis0) = orig := by
        simp [dstName]
      have hnoe : ¬(srcName (MEntry.mk orig dis0 orig dis0) = [] ∨
          dstName (MEntry.mk orig dis0 orig dis0) = []) := by
        rw [e0src, e0dst]
        rintro (h | h)
        · exact append_disabled_ne_nil orig h
        · exact var_ne_nil orig h1 h
      have hs2 : fsExists fsp (srcName (MEntry.mk orig dis0 orig dis0)) = true := by
        rw [e0src]; exact hs
      have hd2 : fsExists fsp (dstName (MEntry.mk orig dis0 orig dis0)) = false := by
        rw [e0dst]; exact hd
      rw [restoreLoop_cons_ren fsp _ ents' hnoe hs2 hd2]
      rw [e0src, e0dst]
      set fs2 := fsRename fsp dis0 orig with hfs2
      have hshape := disableLoop_entries keep rest fs1 hitems'
      have hA : orig ∉ touchList ents' := by
        intro hmem
        rcases touchList_mem ents' orig hmem with ⟨e, he, hsd⟩
        rcases hshape e he with ⟨⟨hsh1, _, hsh3, hsh4, _⟩, hin1, hin2, _, _⟩
        have hetr : e.to_rel ≠ [] := by
          rw [hsh3]; exact append_disabled_ne_nil _
        have hesrc : srcName e = e.mfrom ++ ".disabled".data := by
          rw [srcName, if_pos hetr, hsh3]
        have hefr : e.from_rel ≠ [] := by
          rw [hsh1]; exact var_ne_nil e.mfrom hsh4
        have hedst : dstName e = e.mfrom := by
          rw [dstName, if_pos hefr, hsh1]
        rcases hsd with h | h
        · rw [hesrc] at h
          exact var_ne_disabled orig e.mfrom h1 h
        · rw [hedst] at h
          rw [hsh1, ← h, fsExists, hsrcget] at hin1
          cases hin1
      have hB : dis0 ∉ touchList ents' := by
        intro hmem
        rcases touchList_mem ents' dis0 hmem with ⟨e, he, hsd⟩
        rcases hshape e he with ⟨⟨hsh1, _, hsh3, hsh4, _⟩, hin1, hin2, _, _⟩
        have hetr : e.to_rel ≠ [] := by
          rw [hsh3]; exact append_disabled_ne_nil _
        have hesrc : srcName e = e.mfrom ++ ".disabled".data := by
          rw [srcName, if_pos hetr, hsh3]
        have hefr : e.from_rel ≠ [] := by
          rw [hsh1]; exact var_ne_nil e.mfrom hsh4
        have hedst : dstName e = e.mfrom := by
          rw [dstName, if_pos hefr, hsh1]
        rcases hsd with h | h
        · rw [hesrc, hdis0] at h
          have heq := disabled_append_inj _ _ h
          rw [hsh3, ← heq, ← hdis0] at hin2
          have hx : fsExists fs1 dis0 = true := by
            rw [fsExists, hdstget]; exact h4
          rw [hx] at hin2
          cases hin2
        · rw [hedst] at h
          exact var_ne_disabled e.mfrom orig hsh4 h.symm
      intro p
      by_cases hpt : p ∈ touchList ents'
      case pos =>
        have hag : ∀ q ∈ touchList ents', fsGet fs2 q = fsGet fsp q := by
          intro q hqT
          have hq1 : q ≠ dis0 := fun h => hB (h ▸ hqT)
          have hq2 : q ≠ orig := fun h => hA (h ▸ hqT)
          exact fsGet_rename_other fsp _ _ q hq1 hq2
        have hcong := restoreLoop_congr ents' (touchList ents') fs2 fsp hag
          (fun q h => h) p hpt
        rw [hcong, ih fs1 hitems' p]
        have hp1 : p ≠ orig := fun h => hA (h ▸ hpt)
        have hp2 : p ≠ dis0 := fun h => hB (h ▸ hpt)
        rw [hfs1, fsGet_rename_other fs _ _ p hp1 hp2]
      case neg =>
        rw [restoreLoop_frame ents' fs2 p hpt]
        by_cases hp1 : p = orig
        · rw [hp1]
          rw [hfs2, fsGet_rename_dst fsp dis0 orig hs]
          have hex1 : fsExists fs1 dis0 = true := by
            rw [fsExists, hdstget]; exact h4
          rw [hfsp, disableLoop_preserves_nonvar keep rest fs1 _
            (disabled_not_var orig) hex1, hdstget]
        by_cases hp2 : p = dis0
        · rw [hp2]
          have hne : dis0 ≠ orig := fun h =>
            var_ne_disabled orig orig h1 h.symm
          rw [hfs2, fsGet_rename_src fsp dis0 orig hne]
          rw [fsExists] at h3f
          symm
          simpa using h3f
        · rw [hfs2, fsGet_rename_other fsp _ _ p hp2 hp1]
          have hframe := restoreLoop_frame ents' fsp p hpt
          have hih := ih fs1 hitems' p
          rw [hframe] at hih
          rw [hih, hfs1, fsGet_rename_other fs _ _ p hp1 hp2]

/-- The listing never pairs a (case-insensitive) `.var` actual path with a
different original name. -/
theorem fastList_hitems (fs : FS) :
    ∀ o a, (o, a) ∈ fastListAllStates fs →
      pyEndsWith (pyLower a) ".var".data = true → o = a := by
  intro o a hmem hvar
  rcases fastList_mem_spec fs o a hmem with ⟨_, h | h⟩
  · exact h.2
  · rw [h.1] at hvar
    cases hvar

/-- **C4.** Cold disable (`disable_unrelated_vars_by_rename`) followed
immediately by `restore_offloaded_vars` returns the package directory to
exactly its original listing — every binding (name and content) is as before,
renames being the only operation — and the manifest file is deleted. -/
theorem c4_disable_then_restore_roundtrip :
    ∀ (d : Disk) (keep : List Str),
      (∀ p, fsGet (restoreAll (disableUnrelated d keep).1).1.fs p =
        fsGet d.fs p) ∧
      (restoreAll (disableUnrelated d keep).1).1.manifest = none := by
  intro d keep
  constructor
  · intro p
    exact disable_restore_roundtrip (fastListAllStates d.fs) d.fs keep
      (fastList_hitems d.fs) p
  · rfl

/-- **C5 (amended).** After cold disable, every entry of the freshly written
manifest tracks a file that exists at its disabled path and is absent from
its enabled path, and a full restore deletes the manifest; (live
reconciliation, by contrast, retains stale entries — see the counterexample
theorem). -/
theorem c5_cold_disable_manifest_invariant :
    ∀ (d : Disk) (keep : List Str),
      (∀ e ∈ (disableUnrelated d keep).1.manifest.getD [],
        fsExists (disableUnrelated d keep).1.fs e.to_rel = true ∧
          fsExists (disableUnrelated d keep).1.fs e.from_rel = false) ∧
      (restoreAll (disableUnrelated d keep).1).1.manifest = none := by
  intro d keep
  constructor
  · intro e he
    have h := disableLoop_entries keep (fastListAllStates d.fs) d.fs
      (fastList_hitems d.fs) e he
    exact ⟨h.2.2.2.1, h.2.2.2.2⟩
  · rfl

def c5disk : Disk :=
  ⟨[("b.var".data, 0)], none⟩

theorem c5_witness :
    (MEntry.mk "b.var".data "b.var.disabled".data "b.var".data
        "b.var.disabled".data ∈
      (disableUnrelated c5disk []).1.manifest.getD []) ∧
    fsExists (disableUnrelated c5disk []).1.fs "b.var.disabled".data = true ∧
    fsExists (disableUnrelated c5disk []).1.fs "b.var".data = false :=
  ⟨by decide,
    ((c5_cold_disable_manifest_invariant c5disk []).1
      (MEntry.mk "b.var".data "b.var.disabled".data "b.var".data
        "b.var.disabled".data) (by decide)).1,
    ((c5_cold_disable_manifest_invariant c5disk []).1
      (MEntry.mk "b.var".data "b.var.disabled".data "b.var".data
        "b.var.disabled".data) (by decide)).2⟩

/-- The state violating the claimed invariant: a manifest entry whose file
was externally deleted (present at neither path). -/
def c5stale : Disk :=
  ⟨[], some [MEntry.mk "A.var".data "A.var.disabled".data "A.var".data
      "A.var.disabled".data]⟩

/-- **C5 counterexample.** Live reconciliation retains a manifest entry whose
file exists at neither its disabled nor its enabled path (the restore guard
fails, so the item is kept in `remaining` and written back), contradicting
both the claimed post-operation invariant and the claimed dropping of such
entries. -/
theorem c5_counterexample :
    ((applyKeepSetLive c5stale ["A.var".data]).1.manifest.getD []).length = 1 ∧
    ∀ e ∈ (applyKeepSetLive c5stale ["A.var".data]).1.manifest.getD [],
      fsExists (applyKeepSetLive c5stale ["A.var".data]).1.fs e.to_rel = false ∧
      fsExists (applyKeepSetLive c5stale ["A.var".data]).1.fs e.from_rel =
        false := by
  decide

theorem phase1_cons_notkeep (keep : List Str) (fs : FS) (item : MEntry)
    (rest : List MEntry) (h : item.mfrom ∉ keep) :
    phase1 keep fs (item :: rest) =
      ((phase1 keep fs rest).1, item :: (phase1 keep fs rest).2.1,
        (phase1 keep fs rest).2.2) := by
  simp [phase1, h]

theorem phase1_cons_ren (keep : List Str) (fs : FS) (item : MEntry)
    (rest : List MEntry) (h : item.mfrom ∈ keep)
    (hg1 : fsExists fs item.to_rel = true)
    (hg2 : fsExists fs item.from_rel = false) :
    phase1 keep fs (item :: rest) =
      ((phase1 keep (fsRename fs item.to_rel item.from_rel) rest).1,
        (phase1 keep (fsRename fs item.to_rel item.from_rel) rest).2.1,
        (phase1 keep (fsRename fs item.to_rel item.from_rel) rest).2.2 + 1) := by
  simp [phase1, h, hg1, hg2]

theorem phase1_cons_skip (keep : List Str) (fs : FS) (item : MEntry)
    (rest : List MEntry) (h : item.mfrom ∈ keep)
    (hg : ¬(fsExists fs item.to_rel = true ∧ fsExists fs item.from_rel = false)) :
    phase1 keep fs (item :: rest) =
      ((phase1 keep fs rest).1, item :: (phase1 keep fs rest).2.1,
        (phase1 keep fs rest).2.2) := by
  have h' : ¬(item.mfrom ∉ keep) := fun hx => hx h
  simp only [phase1, if_neg h']
  rw [if_neg]
  intro hx
  rw [Bool.and_eq_true, Bool.not_eq_true'] at hx
  exact hg hx

/-- If no item can be restored, phase 1 is the identity. -/
theorem phase1_noop (keep : List Str) (items : List MEntry) (fs : FS)
    (h : ∀ item ∈ items, item.mfrom ∉ keep ∨
      ¬(fsExists fs item.to_rel = true ∧ fsExists fs item.from_rel = false)) :
    phase1 keep fs items = (fs, items, 0) := by
  induction items with
  | nil => rfl
  | cons item rest ih =>
    have hrest := ih (fun i hi => h i (List.mem_cons_of_mem _ hi))
    rcases h item (List.mem_cons_self _ _) with hk | hg
    · rw [phase1_cons_notkeep keep fs item rest hk, hrest]
    · by_cases hk : item.mfrom ∈ keep
      · rw [phase1_cons_skip keep fs item rest hk hg, hrest]
      · rw [phase1_cons_notkeep keep fs item rest hk, hrest]

theorem phase2_cons_nonvar (keep dbt : List Str) (fs : FS) (orig actual : Str)
    (rest : List (Str × Str))
    (h1 : pyEndsWith (pyLower actual) ".var".data = false) :
    phase2 keep dbt fs ((orig, actual) :: rest) = phase2 keep dbt fs rest := by
  simp [phase2, h1]

theorem phase2_cons_keep (keep dbt : List Str) (fs : FS) (orig actual : Str)
    (rest : List (Str × Str))
    (h1 : pyEndsWith (pyLower actual) ".var".data = true) (h2 : orig ∈ keep) :
    phase2 keep dbt fs ((orig, actual) :: rest) = phase2 keep dbt fs rest := by
  simp [phase2, h1, h2]

theorem phase2_cons_dbt (keep dbt : List Str) (fs : FS) (orig actual : Str)
    (rest : List (Str × Str))
    (h1 : pyEndsWith (pyLower actual) ".var".data = true) (h2 : orig ∉ keep)
    (h3 : orig ∈ dbt) :
    phase2 keep dbt fs ((orig, actual) :: rest) = phase2 keep dbt fs rest := by
  simp [phase2, h1, h2, h3]

theorem phase2_cons_dst (keep dbt : List Str) (fs : FS) (orig actual : Str)
    (rest : List (Str × Str))
    (h1 : pyEndsWith (pyLower actual) ".var".data = true) (h2 : orig ∉ keep)
    (h3 : orig ∉ dbt) (h4 : fsExists fs (orig ++ ".disabled".data) = true) :
    phase2 keep dbt fs ((orig, actual) :: rest) = phase2 keep dbt fs rest := by
  simp [phase2, h1, h2, h3, h4]

theorem phase2_cons_ren (keep dbt : List Str) (fs : FS) (orig actual : Str)
    (rest : List (Str × Str))
    (h1 : pyEndsWith (pyLower actual) ".var".data = true) (h2 : orig ∉ keep)
    (h3 : orig ∉ dbt) (h4 : fsExists fs (orig ++ ".disabled".data) = false)
    (h5 : fsExists fs actual = true) :
    phase2 keep dbt fs ((orig, actual) :: rest) =
      ((phase2 keep dbt (fsRename fs actual (orig ++ ".disabled".data)) rest).1,
        MEntry.mk orig [] actual (orig ++ ".disabled".data) ::
          (phase2 keep dbt (fsRename fs actual (orig ++ ".disabled".data)) rest).2.1,
        (phase2 keep dbt (fsRename fs actual (orig ++ ".disabled".data)) rest).2.2.1 + 1,
        (phase2 keep dbt (fsRename fs actual (orig ++ ".disabled".data)) rest).2.2.2) := by
  simp [phase2, h1, h2, h3, h4, h5]

theorem phase2_cons_fail (keep dbt : List Str) (fs : FS) (orig actual : Str)
    (rest : List (Str × Str))
    (h1 : pyEndsWith (pyLower actual) ".var".data = true) (h2 : orig ∉ keep)
    (h3 : orig ∉ dbt) (h4 : fsExists fs (orig ++ ".disabled".data) = false)
    (h5 : fsExists fs actual = false) :
    phase2 keep dbt fs ((orig, actual) :: rest) =
      ((phase2 keep dbt fs rest).1, (phase2 keep dbt fs rest).2.1,
        (phase2 keep dbt fs rest).2.2.1,
        orig :: (phase2 keep dbt fs rest).2.2.2) := by
  simp [phase2, h1, h2, h3, h4, h5]

/-- If every enabled non-keep var is already tracked or has its disabled
sibling present, phase 2 is the identity. -/
theorem phase2_noop (keep dbt : List Str) (items : List (Str × Str)) (fs : FS)
    (h : ∀ o a, (o, a) ∈ items → pyEndsWith (pyLower a) ".var".data = true →
      o ∉ keep → o ∉ dbt → fsExists fs (o ++ ".disabled".data) = true) :
    phase2 keep dbt fs items = (fs, [], 0, []) := by
  induction items with
  | nil => rfl
  | cons it rest ih =>
    rcases it with ⟨orig, actual⟩
    have hrest := ih (fun o a hmem => h o a (List.mem_cons_of_mem _ hmem))
    by_cases h1 : pyEndsWith (pyLower actual) ".var".data = true
    case neg =>
      rw [phase2_cons_nonvar keep dbt fs orig actual rest
        (Bool.eq_false_iff.mpr h1), hrest]
    by_cases h2 : orig ∈ keep
    case pos =>
      rw [phase2_cons_keep keep dbt fs orig actual rest h1 h2, hrest]
    by_cases h3 : orig ∈ dbt
    case pos =>
      rw [phase2_cons_dbt keep dbt fs orig actual rest h1 h2 h3, hrest]
    case neg =>
      rw [phase2_cons_dst keep dbt fs orig actual rest h1 h2 h3
        (h orig actual (List.mem_cons_self _ _) h1 h2 h3), hrest]

/-- Shape of the normalised `tool_items` entries fed to phase 1 (flat
directory): the enabled name is non-empty, slash-free, `.var`-named, and the
disabled path is the enabled path plus the suffix. -/
def PEntryWF (e : MEntry) : Prop :=
  e.from_rel ≠ [] ∧ ('/' : Char) ∉ e.from_rel ∧
    pyEndsWith (pyLower e.from_rel) ".var".data = true ∧
    e.mfrom = e.from_rel ∧ e.to_rel = e.from_rel ++ ".disabled".data

theorem phase1_preserves_var (keep : List Str) (items : List MEntry) (fs : FS)
    (q : Str) (hwf : ∀ e ∈ items, PEntryWF e)
    (hq : pyEndsWith (pyLower q) ".var".data = true)
    (hex : fsExists fs q = true) :
    fsGet (phase1 keep fs items).1 q = fsGet fs q := by
  induction items generalizing fs with
  | nil => rfl
  | cons item rest ih =>
    have hwf' : ∀ e ∈ rest, PEntryWF e := fun e he => hwf e (List.mem_cons_of_mem _ he)
    rcases hwf item (List.mem_cons_self _ _) with ⟨hne, hsl, hvar, hfrom, hto⟩
    by_cases hk : item.mfrom ∈ keep
    case neg =>
      rw [phase1_cons_notkeep keep fs item rest hk]
      exact ih fs hwf' hex
    by_cases hg1 : fsExists fs item.to_rel = true
    case neg =>
      rw [phase1_cons_skip keep fs item rest hk (fun hx => hg1 hx.1)]
      exact ih fs hwf' hex
    by_cases hg2 : fsExists fs item.from_rel = false
    case neg =>
      rw [phase1_cons_skip keep fs item rest hk (fun hx => hg2 hx.2)]
      exact ih fs hwf' hex
    case pos =>
      rw [phase1_cons_ren keep fs item rest hk hg1 hg2]
      have hq1 : q ≠ item.to_rel := by
        rw [hto]
        exact var_ne_disabled q item.from_rel hq
      have hq2 : q ≠ item.from_rel := by
        intro h
        rw [← h, hex] at hg2
        cases hg2
      have hstep : fsGet (fsRename fs item.to_rel item.from_rel) q =
          fsGet fs q := fsGet_rename_other fs _ _ q hq1 hq2
      have hex2 : fsExists (fsRename fs item.to_rel item.from_rel) q = true := by
        rw [fsExists, hstep]; exact hex
      rw [ih _ hwf' hex2, hstep]

theorem phase1_keeps_nonvar_absent (keep : List Str) (items : List MEntry)
    (fs : FS) (q : Str) (hwf : ∀ e ∈ items, PEntryWF e)
    (hq : pyEndsWith (pyLower q) ".var".data = false)
    (habs : fsExists fs q = false) :
    fsGet (phase1 keep fs items).1 q = none := by
  induction items generalizing fs with
  | nil =>
    rw [fsExists] at habs
    simpa using habs
  | cons item rest ih =>
    have hwf' : ∀ e ∈ rest, PEntryWF e := fun e he => hwf e (List.mem_cons_of_mem _ he)
    rcases hwf item (List.mem_cons_self _ _) with ⟨hne, hsl, hvar, hfrom, hto⟩
    by_cases hk : item.mfrom ∈ keep
    case neg =>
      rw [phase1_cons_notkeep keep fs item rest hk]
      exact ih fs hwf' habs
    by_cases hg1 : fsExists fs item.to_rel = true
    case neg =>
      rw [phase1_cons_skip keep fs item rest hk (fun hx => hg1 hx.1)]
      exact ih fs hwf' habs
    by_cases hg2 : fsExists fs item.from_rel = false
    case neg =>
      rw [phase1_cons_skip keep fs item rest hk (fun hx => hg2 hx.2)]
      exact ih fs hwf' habs
    case pos =>
      rw [phase1_cons_ren keep fs item rest hk hg1 hg2]
      have hq1 : q ≠ item.to_rel := by
        intro h
        rw [← h, habs] at hg1
        cases hg1
      have hq2 : q ≠ item.from_rel := by
        intro h
        rw [h, hvar] at hq
        cases hq
      have hstep : fsGet (fsRename fs item.to_rel item.from_rel) q =
          fsGet fs q := fsGet_rename_other fs _ _ q hq1 hq2
      have habs2 : fsExists (fsRename fs item.to_rel item.from_rel) q = false := by
        rw [fsExists, hstep]; exact habs
      exact ih _ hwf' habs2

/-- Phase 1's `remaining` list: its items come from the input, and a kept-back
item whose original is in the keep set still fails the restore guard in the
final directory state. -/
theorem phase1_rem (keep : List Str) (items : List MEntry) (fs : FS)
    (hwf : ∀ e ∈ items, PEntryWF e) :
    (∀ e ∈ (phase1 keep fs items).2.1, e ∈ items) ∧
    (∀ e ∈ (phase1 keep fs items).2.1, e.mfrom ∈ keep →
      ¬(fsExists (phase1 keep fs items).1 e.to_rel = true ∧
        fsExists (phase1 keep fs items).1 e.from_rel = false)) := by
  induction items generalizing fs with
  | nil => exact ⟨fun e he => absurd he (List.not_mem_nil e), fun e he => absurd he (List.not_mem_nil e)⟩
  | cons item rest ih =>
    have hwf' : ∀ e ∈ rest, PEntryWF e := fun e he => hwf e (List.mem_cons_of_mem _ he)
    rcases hwf item (List.mem_cons_self _ _) with ⟨hne, hsl, hvar, hfrom, hto⟩
    by_cases hk : item.mfrom ∈ keep
    case neg =>
      rw [phase1_cons_notkeep keep fs item rest hk]
      rcases ih fs hwf' with ⟨ihm, ihg⟩
      constructor
      · intro e he
        rcases List.mem_cons.mp he with rfl | he'
        · exact List.mem_cons_self _ _
        · exact List.mem_cons_of_mem _ (ihm e he')
      · intro e he hek
        rcases List.mem_cons.mp he with rfl | he'
        · exact absurd hek hk
        · exact ihg e he' hek
    by_cases hg1 : fsExists fs item.to_rel = true
    case neg =>
      have hgx : ¬(fsExists fs item.to_rel = true ∧
          fsExists fs item.from_rel = false) := fun hx => hg1 hx.1
      rw [phase1_cons_skip keep fs item rest hk hgx]
      rcases ih fs hwf' with ⟨ihm, ihg⟩
      constructor
      · intro e he
        rcases List.mem_cons.mp he with rfl | he'
        · exact List.mem_cons_self _ _
        · exact List.mem_cons_of_mem _ (ihm e he')
      · intro e he hek
        rcases List.mem_cons.mp he with rfl | he'
        · intro hx
          have hto_abs : fsExists fs e.to_rel = false := Bool.eq_false_iff.mpr hg1
          have : fsGet (phase1 keep fs rest).1 e.to_rel = none := by
            apply phase1_keeps_nonvar_absent keep rest fs _ hwf' _ hto_abs
            rw [hto]
            exact disabled_not_var e.from_rel
          rw [fsExists, this] at hx
          exact absurd hx.1 (by simp)
        · exact ihg e he' hek
    by_cases hg2 : fsExists fs item.from_rel = false
    case neg =>
      have hgx : ¬(fsExists fs item.to_rel = true ∧
          fsExists fs item.from_rel = false) := fun hx => hg2 hx.2
      rw [phase1_cons_skip keep fs item rest hk hgx]
      rcases ih fs hwf' with ⟨ihm, ihg⟩
      constructor
      · intro e he
        rcases List.mem_cons.mp he with rfl | he'
        · exact List.mem_cons_self _ _
        · exact List.mem_cons_of_mem _ (ihm e he')
      · intro e he hek
        rcases List.mem_cons.mp he with rfl | he'
        · intro hx
          have hfr_ex : fsExists fs e.from_rel = true := by
            revert hg2
            cases fsExists fs e.from_rel <;> simp
          have hpres : fsGet (phase1 keep fs rest).1 e.from_rel =
              fsGet fs e.from_rel :=
            phase1_preserves_var keep rest fs _ hwf' hvar hfr_ex
          have hxx : fsExists (phase1 keep fs rest).1 e.from_rel = true := by
            rw [fsExists, hpres]
            exact hfr_ex
          rw [hxx] at hx
          exact absurd hx.2 (by simp)
        · exact ihg e he' hek
    case pos =>
      rw [phase1_cons_ren keep fs item rest hk hg1 hg2]
      rcases ih (fsRename fs item.to_rel item.from_rel) hwf' with ⟨ihm, ihg⟩
      exact ⟨fun e he => List.mem_cons_of_mem _ (ihm e he), ihg⟩

theorem phase2_preserves_nonvar (keep dbt : List Str)
    (items : List (Str × Str)) (fs : FS) (q : Str)
    (hq : pyEndsWith (pyLower q) ".var".data = false)
    (hex : fsExists fs q = true) :
    fsGet (phase2 keep dbt fs items).1 q = fsGet fs q := by
  induction items generalizing fs with
  | nil => rfl
  | cons it rest ih =>
    rcases it with ⟨orig, actual⟩
    by_cases h1 : pyEndsWith (pyLower actual) ".var".data = true
    case neg =>
      rw [phase2_cons_nonvar keep dbt fs orig actual rest (Bool.eq_false_iff.mpr h1)]
      exact ih fs hex
    by_cases h2 : orig ∈ keep
    case pos =>
      rw [phase2_cons_keep keep dbt fs orig actual rest h1 h2]
      exact ih fs hex
    by_cases h3 : orig ∈ dbt
    case pos =>
      rw [phase2_cons_dbt keep dbt fs orig actual rest h1 h2 h3]
      exact ih fs hex
    by_cases h4 : fsExists fs (orig ++ ".disabled".data) = true
    case pos =>
      rw [phase2_cons_dst keep dbt fs orig actual rest h1 h2 h3 h4]
      exact ih fs hex
    by_cases h5 : fsExists fs actual = true
    case neg =>
      rw [phase2_cons_fail keep dbt fs orig actual rest h1 h2 h3
        (Bool.eq_false_iff.mpr h4) (Bool.eq_false_iff.mpr h5)]
      exact ih fs hex
    case pos =>
      rw [phase2_cons_ren keep dbt fs orig actual rest h1 h2 h3
        (Bool.eq_false_iff.mpr h4) h5]
      have hqa : q ≠ actual := by
        intro h
        rw [h, h1] at hq
        cases hq
      have hqd : q ≠ orig ++ ".disabled".data := by
        intro h
        rw [← h, hex] at h4
        exact h4 rfl
      have hstep : fsGet (fsRename fs actual (orig ++ ".disabled".data)) q =
          fsGet fs q := fsGet_rename_other fs _ _ q hqa hqd
      have hex2 : fsExists (fsRename fs actual (orig ++ ".disabled".data)) q =
          true := by
        rw [fsExists, hstep]; exact hex
      rw [ih _ hex2, hstep]

theorem phase2_keeps_var_absent (keep dbt : List Str)
    (items : List (Str × Str)) (fs : FS) (q : Str)
    (hq : pyEndsWith (pyLower q) ".var".data = true)
    (habs : fsExists fs q = false) :
    fsGet (phase2 keep dbt fs items).1 q = none := by
  induction items generalizing fs with
  | nil =>
    rw [fsExists] at habs
    simpa using habs
  | cons it rest ih =>
    rcases it with ⟨orig, actual⟩
    by_cases h1 : pyEndsWith (pyLower actual) ".var".data = true
    case neg =>
      rw [phase2_cons_nonvar keep dbt fs orig actual rest (Bool.eq_false_iff.mpr h1)]
      exact ih fs habs
    by_cases h2 : orig ∈ keep
    case pos =>
      rw [phase2_cons_keep keep dbt fs orig actual rest h1 h2]
      exact ih fs habs
    by_cases h3 : orig ∈ dbt
    case pos =>
      rw [phase2_cons_dbt keep dbt fs orig actual rest h1 h2 h3]
      exact ih fs habs
    by_cases h4 : fsExists fs (orig ++ ".disabled".data) = true
    case pos =>
      rw [phase2_cons_dst keep dbt fs orig actual rest h1 h2 h3 h4]
      exact ih fs habs
    by_cases h5 : fsExists fs actual = true
    case neg =>
      rw [phase2_cons_fail keep dbt fs orig actual rest h1 h2 h3
        (Bool.eq_false_iff.mpr h4) (Bool.eq_false_iff.mpr h5)]
      exact ih fs habs
    case pos =>
      rw [phase2_cons_ren keep dbt fs orig actual rest h1 h2 h3
        (Bool.eq_false_iff.mpr h4) h5]
      have hqa : q ≠ actual := by
        intro h
        rw [← h, habs] at h5
        cases h5
      have hqd : q ≠ orig ++ ".disabled".data := var_ne_disabled q orig hq
      have hstep : fsGet (fsRename fs actual (orig ++ ".disabled".data)) q =
          fsGet fs q := fsGet_rename_other fs _ _ q hqa hqd
      have habs2 : fsExists (fsRename fs actual (orig ++ ".disabled".data)) q =
          false := by
        rw [fsExists, hstep]; exact habs
      exact ih _ habs2

theorem phase2_preserves_keepvar (keep dbt : List Str)
    (items : List (Str × Str)) (fs : FS) (q : Str)
    (hit : ∀ o a, (o, a) ∈ items →
      pyEndsWith (pyLower a) ".var".data = true → o = a)
    (hq : pyEndsWith (pyLower q) ".var".data = true) (hqk : q ∈ keep)
    (hex : fsExists fs q = true) :
    fsGet (phase2 keep dbt fs items).1 q = fsGet fs q := by
  induction items generalizing fs with
  | nil => rfl
  | cons it rest ih =>
    rcases it with ⟨orig, actual⟩
    have hit' : ∀ o a, (o, a) ∈ rest →
        pyEndsWith (pyLower a) ".var".data = true → o = a :=
      fun o a h => hit o a (List.mem_cons_of_mem _ h)
    by_cases h1 : pyEndsWith (pyLower actual) ".var".data = true
    case neg =>
      rw [phase2_cons_nonvar keep dbt fs orig actual rest (Bool.eq_false_iff.mpr h1)]
      exact ih fs hit' hex
    by_cases h2 : orig ∈ keep
    case pos =>
      rw [phase2_cons_keep keep dbt fs orig actual rest h1 h2]
      exact ih fs hit' hex
    by_cases h3 : orig ∈ dbt
    case pos =>
      rw [phase2_cons_dbt keep dbt fs orig actual rest h1 h2 h3]
      exact ih fs hit' hex
    by_cases h4 : fsExists fs (orig ++ ".disabled".data) = true
    case pos =>
      rw [phase2_cons_dst keep dbt fs orig actual rest h1 h2 h3 h4]
      exact ih fs hit' hex
    by_cases h5 : fsExists fs actual = true
    case neg =>
      rw [phase2_cons_fail keep dbt fs orig actual rest h1 h2 h3
        (Bool.eq_false_iff.mpr h4) (Bool.eq_false_iff.mpr h5)]
      exact ih fs hit' hex
    case pos =>
      rw [phase2_cons_ren keep dbt fs orig actual rest h1 h2 h3
        (Bool.eq_false_iff.mpr h4) h5]
      have horig : orig = actual := hit orig actual (List.mem_cons_self _ _) h1
      have hqa : q ≠ actual := by
        intro h
        rw [← horig] at h
        rw [h] at hqk
        exact h2 hqk
      have hqd : q ≠ orig ++ ".disabled".data := var_ne_disabled q orig hq
      have hstep : fsGet (fsRename fs actual (orig ++ ".disabled".data)) q =
          fsGet fs q := fsGet_rename_other fs _ _ q hqa hqd
      have hex2 : fsExists (fsRename fs actual (orig ++ ".disabled".data)) q =
          true := by
        rw [fsExists, hstep]; exact hex
      rw [ih _ hit' hex2, hstep]

theorem phase2_keeps_absent_dis_of_keep (keep dbt : List Str)
    (items : List (Str × Str)) (fs : FS) (x : Str) (hxk : x ∈ keep)
    (habs : fsExists fs (x ++ ".disabled".data) = false) :
    fsGet (phase2 keep dbt fs items).1 (x ++ ".disabled".data) = none := by
  induction items generalizing fs with
  | nil =>
    rw [fsExists] at habs
    simpa using habs
  | cons it rest ih =>
    rcases it with ⟨orig, actual⟩
    by_cases h1 : pyEndsWith (pyLower actual) ".var".data = true
    case neg =>
      rw [phase2_cons_nonvar keep dbt fs orig actual rest (Bool.eq_false_iff.mpr h1)]
      exact ih fs habs
    by_cases h2 : orig ∈ keep
    case pos =>
      rw [phase2_cons_keep keep dbt fs orig actual rest h1 h2]
      exact ih fs habs
    by_cases h3 : orig ∈ dbt
    case pos =>
      rw [phase2_cons_dbt keep dbt fs orig actual rest h1 h2 h3]
      exact ih fs habs
    by_cases h4 : fsExists fs (orig ++ ".disabled".data) = true
    case pos =>
      rw [phase2_cons_dst keep dbt fs orig actual rest h1 h2 h3 h4]
      exact ih fs habs
    by_cases h5 : fsExists fs actual = true
    case neg =>
      rw [phase2_cons_fail keep dbt fs orig actual rest h1 h2 h3
        (Bool.eq_false_iff.mpr h4) (Bool.eq_false_iff.mpr h5)]
      exact ih fs habs
    case pos =>
      rw [phase2_cons_ren keep dbt fs orig actual rest h1 h2 h3
        (Bool.eq_false_iff.mpr h4) h5]
      have hqa : x ++ ".disabled".data ≠ actual := by
        intro h
        rw [← h, disabled_not_var] at h1
        cases h1
      have hqd : x ++ ".disabled".data ≠ orig ++ ".disabled".data := by
        intro h
        have := disabled_append_inj _ _ h
        rw [this] at hxk
        exact h2 hxk
      have hstep : fsGet (fsRename fs actual (orig ++ ".disabled".data))
          (x ++ ".disabled".data) = fsGet fs (x ++ ".disabled".data) :=
        fsGet_rename_other fs _ _ _ hqa hqd
      have habs2 : fsExists (fsRename fs actual (orig ++ ".disabled".data))
          (x ++ ".disabled".data) = false := by
        rw [fsExists, hstep]; exact habs
      exact ih _ habs2

/-- A var enabled after phase 2 that was skipped (not in keep, not tracked)
has its disabled sibling present afterwards. -/
theorem phase2_post (keep dbt : List Str) (items : List (Str × Str)) (fs : FS)
    (p : Str) (hmem : (p, p) ∈ items)
    (hq : pyEndsWith (pyLower p) ".var".data = true) (hk : p ∉ keep)
    (hd : p ∉ dbt)
    (hex : fsExists (phase2 keep dbt fs items).1 p = true) :
    fsExists (phase2 keep dbt fs items).1 (p ++ ".disabled".data) = true := by
  induction items generalizing fs with
  | nil => cases hmem
  | cons it rest ih =>
    rcases it with ⟨orig, actual⟩
    rcases List.mem_cons.mp hmem with heq | hmem2
    · injection heq with ho ha
      subst ho
      subst ha
      by_cases h4 : fsExists fs (p ++ ".disabled".data) = true
      · rw [phase2_cons_dst keep dbt fs p p rest hq hk hd h4] at hex ⊢
        rw [fsExists, phase2_preserves_nonvar keep dbt rest fs _
          (disabled_not_var p) h4]
        rw [fsExists] at h4
        exact h4
      · by_cases h5 : fsExists fs p = true
        · rw [phase2_cons_ren keep dbt fs p p rest hq hk hd
            (Bool.eq_false_iff.mpr h4) h5] at hex
          have habs : fsExists (fsRename fs p (p ++ ".disabled".data))
              p = false := by
            rw [fsExists, fsGet_rename_src fs p _
              (var_ne_disabled p p hq)]
            rfl
          rw [fsExists, phase2_keeps_var_absent keep dbt rest _ p hq habs]
            at hex
          cases hex
        · rw [phase2_cons_fail keep dbt fs p p rest hq hk hd
            (Bool.eq_false_iff.mpr h4) (Bool.eq_false_iff.mpr h5)] at hex
          rw [fsExists, phase2_keeps_var_absent keep dbt rest fs p hq
            (Bool.eq_false_iff.mpr h5)] at hex
          cases hex
    · by_cases h1 : pyEndsWith (pyLower actual) ".var".data = true
      case neg =>
        rw [phase2_cons_nonvar keep dbt fs orig actual rest
          (Bool.eq_false_iff.mpr h1)] at hex ⊢
        exact ih fs hmem2 hex
      by_cases h2 : orig ∈ keep
      case pos =>
        rw [phase2_cons_keep keep dbt fs orig actual rest h1 h2] at hex ⊢
        exact ih fs hmem2 hex
      by_cases h3 : orig ∈ dbt
      case pos =>
        rw [phase2_cons_dbt keep dbt fs orig actual rest h1 h2 h3] at hex ⊢
        exact ih fs hmem2 hex
      by_cases h4 : fsExists fs (orig ++ ".disabled".data) = true
      case pos =>
        rw [phase2_cons_dst keep dbt fs orig actual rest h1 h2 h3 h4] at hex ⊢
        exact ih fs hmem2 hex
      by_cases h5 : fsExists fs actual = true
      case neg =>
        rw [phase2_cons_fail keep dbt fs orig actual rest h1 h2 h3
          (Bool.eq_false_iff.mpr h4) (Bool.eq_false_iff.mpr h5)] at hex ⊢
        exact ih fs hmem2 hex
      case pos =>
        rw [phase2_cons_ren keep dbt fs orig actual rest h1 h2 h3
          (Bool.eq_false_iff.mpr h4) h5] at hex ⊢
        exact ih _ hmem2 hex

/-- Shape and provenance of phase 2's freshly written manifest entries. -/
theorem phase2_entries (keep dbt : List Str) (items : List (Str × Str))
    (fs : FS)
    (hit : ∀ o a, (o, a) ∈ items →
      pyEndsWith (pyLower a) ".var".data = true → o = a) :
    ∀ e ∈ (phase2 keep dbt fs items).2.1,
      e.from_rel = e.mfrom ∧ e.mto = [] ∧
        e.to_rel = e.mfrom ++ ".disabled".data ∧
        pyEndsWith (pyLower e.mfrom) ".var".data = true ∧
        e.mfrom ∉ keep ∧ e.mfrom ∉ dbt ∧ fsExists fs e.mfrom = true := by
  induction items generalizing fs with
  | nil => intro e he; cases he
  | cons it rest ih =>
    rcases it with ⟨orig, actual⟩
    have hit' : ∀ o a, (o, a) ∈ rest →
        pyEndsWith (pyLower a) ".var".data = true → o = a :=
      fun o a h => hit o a (List.mem_cons_of_mem _ h)
    by_cases h1 : pyEndsWith (pyLower actual) ".var".data = true
    case neg =>
      rw [phase2_cons_nonvar keep dbt fs orig actual rest
        (Bool.eq_false_iff.mpr h1)]
      exact ih fs hit'
    by_cases h2 : orig ∈ keep
    case pos =>
      rw [phase2_cons_keep keep dbt fs orig actual rest h1 h2]
      exact ih fs hit'
    by_cases h3 : orig ∈ dbt
    case pos =>
      rw [phase2_cons_dbt keep dbt fs orig actual rest h1 h2 h3]
      exact ih fs hit'
    by_cases h4 : fsExists fs (orig ++ ".disabled".data) = true
    case pos =>
      rw [phase2_cons_dst keep dbt fs orig actual rest h1 h2 h3 h4]
      exact ih fs hit'
    by_cases h5 : fsExists fs actual = true
    case neg =>
      rw [phase2_cons_fail keep dbt fs orig actual rest h1 h2 h3
        (Bool.eq_false_iff.mpr h4) (Bool.eq_false_iff.mpr h5)]
      exact ih fs hit'
    case pos =>
      have horig : orig = actual := hit orig actual (List.mem_cons_self _ _) h1
      subst horig
      rw [phase2_cons_ren keep dbt fs orig orig rest h1 h2 h3
        (Bool.eq_false_iff.mpr h4) h5]
      intro e he
      rcases List.mem_cons.mp he with rfl | he'
      · exact ⟨rfl, rfl, rfl, h1, h2, h3, h5⟩
      · rcases ih _ hit' e he' with ⟨ha, hb, hc, hvar, hk, hd, hex1⟩
        refine ⟨ha, hb, hc, hvar, hk, hd, ?_⟩
        have hne1 : e.mfrom ≠ orig := by
          intro h
          rw [fsExists, h, fsGet_rename_src fs orig _
            (var_ne_disabled orig orig h1)] at hex1
          cases hex1
        have hne2 : e.mfrom ≠ orig ++ ".disabled".data :=
          var_ne_disabled e.mfrom orig hvar
        rw [fsExists, fsGet_rename_other fs _ _ _ hne1 hne2] at hex1
        exact hex1

theorem fsRename_exists_sub (fs : FS) (s d p : Str)
    (h : fsExists (fsRename fs s d) p = true) :
    p = d ∨ fsExists fs p = true := by
  rw [fsRename] at h
  match hc : fsGet fs s with
  | none =>
    rw [hc] at h
    exact Or.inr h
  | some c =>
    rw [hc, fsExists, fsGet] at h
    by_cases hpd : d = p
    · exact Or.inl hpd.symm
    · rw [if_neg hpd] at h
      by_cases hps : p = s
      · rw [hps, fsGet_erase_self] at h
        cases h
      · rw [fsGet_erase_other fs s p hps] at h
        exact Or.inr h

theorem phase1_slashless (keep : List Str) (items : List MEntry) (fs : FS)
    (hwf : ∀ e ∈ items, PEntryWF e)
    (hsl : ∀ p, fsExists fs p = true → ('/' : Char) ∉ p) :
    ∀ p, fsExists (phase1 keep fs items).1 p = true → ('/' : Char) ∉ p := by
  induction items generalizing fs with
  | nil => exact hsl
  | cons item rest ih =>
    have hwf' : ∀ e ∈ rest, PEntryWF e :=
      fun e he => hwf e (List.mem_cons_of_mem _ he)
    rcases hwf item (List.mem_cons_self _ _) with ⟨hne, hisl, hvar, hfrom, hto⟩
    by_cases hk : item.mfrom ∈ keep
    case neg =>
      rw [phase1_cons_notkeep keep fs item rest hk]
      exact ih fs hwf' hsl
    by_cases hg1 : fsExists fs item.to_rel = true
    case neg =>
      rw [phase1_cons_skip keep fs item rest hk (fun hx => hg1 hx.1)]
      exact ih fs hwf' hsl
    by_cases hg2 : fsExists fs item.from_rel = false
    case neg =>
      rw [phase1_cons_skip keep fs item rest hk (fun hx => hg2 hx.2)]
      exact ih fs hwf' hsl
    case pos =>
      rw [phase1_cons_ren keep fs item rest hk hg1 hg2]
      refine ih _ hwf' ?_
      intro p hp
      rcases fsRename_exists_sub fs _ _ p hp with h | h
      · rw [h]
        exact hisl
      · exact hsl p h

theorem phase2_slashless (keep dbt : List Str) (items : List (Str × Str))
    (fs : FS)
    (hit : ∀ o a, (o, a) ∈ items →
      pyEndsWith (pyLower a) ".var".data = true → o = a)
    (hsl : ∀ p, fsExists fs p = true → ('/' : Char) ∉ p) :
    ∀ p, fsExists (phase2 keep dbt fs items).1 p = true → ('/' : Char) ∉ p := by
  induction items generalizing fs with
  | nil => exact hsl
  | cons it rest ih =>
    rcases it with ⟨orig, actual⟩
    have hit' : ∀ o a, (o, a) ∈ rest →
        pyEndsWith (pyLower a) ".var".data = true → o = a :=
      fun o a h => hit o a (List.mem_cons_of_mem _ h)
    by_cases h1 : pyEndsWith (pyLower actual) ".var".data = true
    case neg =>
      rw [phase2_cons_nonvar keep dbt fs orig actual rest
        (Bool.eq_false_iff.mpr h1)]
      exact ih fs hit' hsl
    by_cases h2 : orig ∈ keep
    case pos =>
      rw [phase2_cons_keep keep dbt fs orig actual rest h1 h2]
      exact ih fs hit' hsl
    by_cases h3 : orig ∈ dbt
    case pos =>
      rw [phase2_cons_dbt keep dbt fs orig actual rest h1 h2 h3]
      exact ih fs hit' hsl
    by_cases h4 : fsExists fs (orig ++ ".disabled".data) = true
    case pos =>
      rw [phase2_cons_dst keep dbt fs orig actual rest h1 h2 h3 h4]
      exact ih fs hit' hsl
    by_cases h5 : fsExists fs actual = true
    case neg =>
      rw [phase2_cons_fail keep dbt fs orig actual rest h1 h2 h3
        (Bool.eq_false_iff.mpr h4) (Bool.eq_false_iff.mpr h5)]
      exact ih fs hit' hsl
    case pos =>
      have horig : orig = actual := hit orig actual (List.mem_cons_self _ _) h1
      subst horig
      rw [phase2_cons_ren keep dbt fs orig orig rest h1 h2 h3
        (Bool.eq_false_iff.mpr h4) h5]
      refine ih _ hit' ?_
      intro p hp
      rcases fsRename_exists_sub fs _ _ p hp with h | h
      · rw [h]
        exact no_slash_append orig ".disabled".data (hsl orig h5) (by decide)
      · exact hsl p h

/-- On a well-formed manifest, the `tool_items` normalisation is a plain map:
`from` is rebuilt as the basename of the enabled path and `to` is dropped. -/
theorem parseToolItems_wf_eq (renamed : List MEntry)
    (hwf : ∀ e ∈ renamed, PEntryWF e) :
    parseToolItems renamed = renamed.map (fun e =>
      MEntry.mk e.from_rel [] e.from_rel (e.from_rel ++ ".disabled".data)) := by
  induction renamed with
  | nil => rfl
  | cons e rest ih =>
    rcases hwf e (List.mem_cons_self _ _) with ⟨hne, hsl, hvar, hfrom, hto⟩
    have hsrc : srcName e = e.from_rel ++ ".disabled".data := by
      rw [srcName, if_pos (by rw [hto]; exact append_disabled_ne_nil _), hto]
    have hdst : dstName e = e.from_rel := by
      rw [dstName, if_pos hne]
    rw [parseToolItems, List.filterMap_cons, List.map_cons]
    have hcond : ¬(srcName e = [] ∨ dstName e = []) := by
      rw [hsrc, hdst]
      rintro (h | h)
      · exact append_disabled_ne_nil _ h
      · exact hne h
    rw [if_neg hcond]
    have := ih (fun e' he' => hwf e' (List.mem_cons_of_mem _ he'))
    rw [parseToolItems] at this
    rw [this, hsrc, hdst, pyBasename_of_no_slash _ hsl]

/-- All normalised `tool_items` over a well-formed manifest are well-formed. -/
theorem parseToolItems_wf (renamed : List MEntry)
    (hwf : ∀ e ∈ renamed, PEntryWF e) :
    ∀ e2 ∈ parseToolItems renamed, PEntryWF e2 := by
  rw [parseToolItems_wf_eq renamed hwf]
  intro e2 he2
  rcases List.mem_map.mp he2 with ⟨e, he, rfl⟩
  rcases hwf e he with ⟨hne, hsl, hvar, hfrom, hto⟩
  exact ⟨hne, hsl, hvar, rfl, rfl⟩

/-- **C2.** Running live reconciliation twice in a row with the same keep set
(no external change in between, flat directory, well-formed manifest) makes
the second run a no-op: it performs no renames (the directory is unchanged)
and returns `(0, 0)`. -/
theorem c2_live_reconcile_noop_second_time (d : Disk) (keep : List Str)
    (hwf : ∀ e ∈ d.manifest.getD [], PEntryWF e)
    (hsl : ∀ p, fsExists d.fs p = true → ('/' : Char) ∉ p) :
    (applyKeepSetLive (applyKeepSetLive d keep).1 keep).2.1 = 0 ∧
    (applyKeepSetLive (applyKeepSetLive d keep).1 keep).2.2 = 0 ∧
    (applyKeepSetLive (applyKeepSetLive d keep).1 keep).1.fs =
      (applyKeepSetLive d keep).1.fs := by
  set T0 := parseToolItems (d.manifest.getD []) with hT0
  set r1 := phase1 keep d.fs T0 with hr1
  set dbt1 := r1.2.1.filterMap
    (fun i => if i.mfrom ≠ [] then some i.mfrom else none) with hdbt1
  set r2 := phase2 keep dbt1 r1.1 (fastListAllStates r1.1) with hr2
  set manifest1 := (r1.2.1 ++ r2.2.1).map (fun i =>
    MEntry.mk i.mfrom (pyBasename i.to_rel) i.from_rel i.to_rel) with hman1
  have hd1 : (applyKeepSetLive d keep).1 = ⟨r2.1, some manifest1⟩ := rfl
  have hT0wf : ∀ e ∈ T0, PEntryWF e := parseToolItems_wf _ hwf
  have hrm := phase1_rem keep T0 d.fs hT0wf
  have hsl1 : ∀ p, fsExists r1.1 p = true → ('/' : Char) ∉ p :=
    phase1_slashless keep T0 d.fs hT0wf hsl
  have hit1 := fastList_hitems r1.1
  have hent2 := phase2_entries keep dbt1 (fastListAllStates r1.1) r1.1 hit1
  have hman1wf : ∀ e ∈ manifest1, PEntryWF e := by
    intro e he
    rcases List.mem_map.mp he with ⟨i, hi, rfl⟩
    rcases List.mem_append.mp hi with hi1 | hi2
    · rcases hT0wf i (hrm.1 i hi1) with ⟨hne, hslp, hvar, hfrom, hto⟩
      exact ⟨hne, hslp, hvar, hfrom, hto⟩
    · rcases hent2 i hi2 with ⟨ha, _hb, hc, hvar, _hk, _hd, hex⟩
      have hslp : ('/' : Char) ∉ i.mfrom := hsl1 i.mfrom hex
      refine ⟨?_, ?_, ?_, ?_, ?_⟩
      · show i.from_rel ≠ []
        rw [ha]
        exact var_ne_nil i.mfrom hvar
      · show ('/' : Char) ∉ i.from_rel
        rw [ha]
        exact hslp
      · show pyEndsWith (pyLower i.from_rel) ".var".data = true
        rw [ha]
        exact hvar
      · show i.mfrom = i.from_rel
        exact ha.symm
      · show i.to_rel = i.from_rel ++ ".disabled".data
        rw [hc, ha]
  have hT1eq : parseToolItems manifest1 = manifest1.map (fun e =>
      MEntry.mk e.from_rel [] e.from_rel (e.from_rel ++ ".disabled".data)) :=
    parseToolItems_wf_eq manifest1 hman1wf
  have hnoop1 : phase1 keep r2.1 (parseToolItems manifest1) =
      (r2.1, parseToolItems manifest1, 0) := by
    apply phase1_noop
    intro item hitem
    rw [hT1eq] at hitem
    rcases List.mem_map.mp hitem with ⟨e, he, rfl⟩
    rcases List.mem_map.mp he with ⟨i, hi, rfl⟩
    rcases List.mem_append.mp hi with hi1 | hi2
    · rcases hT0wf i (hrm.1 i hi1) with ⟨hne, hslp, hvar, hfrom, hto⟩
      by_cases hk : i.from_rel ∈ keep
      case neg => exact Or.inl hk
      case pos =>
        right
        have hgu := hrm.2 i hi1 (by rw [hfrom]; exact hk)
        intro hx
        apply hgu
        by_cases hEto : fsExists r1.1 i.to_rel = true
        · refine ⟨hEto, ?_⟩
          by_cases hEfrom : fsExists r1.1 i.from_rel = true
          · exfalso
            have hpres : fsGet r2.1 i.from_rel = fsGet r1.1 i.from_rel :=
              phase2_preserves_keepvar keep dbt1 _ r1.1 i.from_rel hit1
                hvar hk hEfrom
            have : fsExists r2.1 i.from_rel = true := by
              rw [fsExists, hpres]
              exact hEfrom
            rw [this] at hx
            exact absurd hx.2 (by simp)
          · revert hEfrom
            cases fsExists r1.1 i.from_rel <;> simp
        · exfalso
          have habs : fsExists r1.1 (i.from_rel ++ ".disabled".data) = false := by
            rw [← hto]
            revert hEto
            cases fsExists r1.1 i.to_rel <;> simp
          have : fsGet r2.1 (i.from_rel ++ ".disabled".data) = none :=
            phase2_keeps_absent_dis_of_keep keep dbt1 _ r1.1 i.from_rel hk habs
          have hxx : fsExists r2.1 (i.from_rel ++ ".disabled".data) = false := by
            rw [fsExists, this]
            rfl
          rw [hxx] at hx
          exact absurd hx.1 (by simp)
    · rcases hent2 i hi2 with ⟨ha, _hb, _hc, _hvar, hk, _hd, _hex⟩
      left
      show i.from_rel ∉ keep
      rw [← ha] at hk
      exact hk
  have hdbtsub : ∀ x, x ∈ dbt1 →
      x ∈ (parseToolItems manifest1).filterMap
        (fun i => if i.mfrom ≠ [] then some i.mfrom else none) := by
    intro x hx
    rw [hdbt1] at hx
    rcases List.mem_filterMap.mp hx with ⟨i, hi, hfx⟩
    by_cases hmf : i.mfrom ≠ []
    case neg =>
      rw [if_neg hmf] at hfx
      cases hfx
    case pos =>
      rw [if_pos hmf] at hfx
      have hxi : x = i.mfrom := (Option.some.inj hfx).symm
      rcases hT0wf i (hrm.1 i hi) with ⟨hne, hslp, hvar, hfrom, hto⟩
      rw [hT1eq]
      refine List.mem_filterMap.mpr
        ⟨MEntry.mk i.from_rel [] i.from_rel (i.from_rel ++ ".disabled".data),
          ?_, ?_⟩
      · refine List.mem_map.mpr
          ⟨MEntry.mk i.mfrom (pyBasename i.to_rel) i.from_rel i.to_rel, ?_, ?_⟩
        · rw [hman1]
          exact List.mem_map.mpr ⟨i, List.mem_append.mpr (Or.inl hi), rfl⟩
        · rfl
      · rw [if_pos (by simpa using hne)]
        rw [hxi, hfrom]
  have hnoop2 : phase2 keep
      ((parseToolItems manifest1).filterMap
        (fun i => if i.mfrom ≠ [] then some i.mfrom else none)) r2.1
      (fastListAllStates r2.1) = (r2.1, [], 0, []) := by
    apply phase2_noop
    intro o a hmem hvar hk hd2
    have ho : o = a := fastList_hitems r2.1 o a hmem hvar
    subst ho
    have hex2 : fsExists r2.1 o = true := (fastList_mem_spec r2.1 o o hmem).1
    have hd1n : o ∉ dbt1 := fun hin => hd2 (hdbtsub o hin)
    have hex1 : fsExists r1.1 o = true := by
      by_contra habs
      have habs' : fsExists r1.1 o = false := by
        revert habs
        cases fsExists r1.1 o <;> simp
      have : fsGet r2.1 o = none :=
        phase2_keeps_var_absent keep dbt1 _ r1.1 o hvar habs'
      rw [fsExists, this] at hex2
      cases hex2
    have hmem1 : (o, o) ∈ fastListAllStates r1.1 :=
      fastList_mem_of_var r1.1 o hvar hex1
    exact phase2_post keep dbt1 (fastListAllStates r1.1) r1.1 o hmem1 hvar hk
      hd1n hex2
  have key : (applyKeepSetLive ⟨r2.1, some manifest1⟩ keep).2.1 = 0 ∧
      (applyKeepSetLive ⟨r2.1, some manifest1⟩ keep).2.2 = 0 ∧
      (applyKeepSetLive ⟨r2.1, some manifest1⟩ keep).1.fs = r2.1 := by
    rw [applyKeepSetLive]
    simp only [Option.getD_some]
    rw [hnoop1]
    simp only
    rw [hnoop2]
    simp
  rw [hd1]
  exact key

def c2disk : Disk := ⟨[("a.var".data, 0), ("b.var".data, 1)], none⟩

theorem c2_witness :
    (∀ e ∈ c2disk.manifest.getD [], PEntryWF e) ∧
    (applyKeepSetLive (applyKeepSetLive c2disk ["a.var".data]).1
      ["a.var".data]).2.1 = 0 ∧
    (applyKeepSetLive (applyKeepSetLive c2disk ["a.var".data]).1
      ["a.var".data]).2.2 = 0 := by
  have hwf : ∀ e ∈ c2disk.manifest.getD [], PEntryWF e :=
    fun e he => absurd he (List.not_mem_nil e)
  have hsl : ∀ p, fsExists c2disk.fs p = true → ('/' : Char) ∉ p := by
    intro p hp
    rw [fsExists_iff_mem_keys] at hp
    have hp2 : p ∈ ["a.var".data, "b.var".data] := hp
    rcases List.mem_cons.mp hp2 with rfl | hp3
    · decide
    · rcases List.mem_cons.mp hp3 with rfl | hp4
      · decide
      · cases hp4
  exact ⟨hwf,
    (c2_live_reconcile_noop_second_time c2disk ["a.var".data] hwf hsl).1,
    (c2_live_reconcile_noop_second_time c2disk ["a.var".data] hwf hsl).2.1⟩

/-! ## Incremental change check (`ChangeCheckWorker.run`, `gui_qt.py`) -/

/-- `os.stat` result (only the fields the tool reads). -/
structure FileStat where
  size : Nat
  mtime : Int
  atime : Int
deriving DecidableEq

/-- `_var_signature` / `_file_signature` (`gui_qt.py`):
`f"{st.st_size}:{int(st.st_mtime)}"`, with `"0:0"` when `stat` raises.  The
access time is not part of the signature. -/
def varSignature (st : Option FileStat) : Str :=
  match st with
  | none => "0:0".data
  | some s => (toString s.size).data ++ ":".data ++ (toString s.mtime).data

/-- Generic association-list `dict.get`. -/
def alistGet {α : Type} : List (Str × α) → Str → Option α
  | [], _ => none
  | (k, v) :: rest, p => if k = p then some v else alistGet rest p

/-- The persisted cache as `ChangeCheckWorker` reads it: the recorded addon
directory, the `all_var_sigs` map (`none` when absent or not a dict), and the
`loose` map (`relp → sig`, where an entry may itself lack `"sig"`). -/
structure CacheObj where
  addon_dir : Option Str
  all_var_sigs : Option (List (Str × Str))
  loose : List (Str × Option Str)

/-- `str(cached_addon)`: Python renders a missing key (`None`) as `"None"`. -/
def cachedDirStr (cache : CacheObj) : Str :=
  match cache.addon_dir with
  | some s => s
  | none => "None".data

/-- `(cached_loose.get(relp) or {}).get("sig")`. -/
def looseSig (loose : List (Str × Option Str)) (k : Str) : Option Str :=
  match alistGet loose k with
  | none => none
  | some v => v

/-- Python `set(a) == set(b)` on key lists. -/
def keySetEq (a b : List Str) : Bool :=
  a.all (fun x => decide (x ∈ b)) && b.all (fun x => decide (x ∈ a))

/-- `ChangeCheckWorker.run` (`gui_qt.py`), as a pure function of the cache
and the freshly computed signature dicts (`currentVars` is
`{orig_name: _var_signature(actual_path)}` over
`fast_list_vars_all_states`, `currentLoose` the loose-scene map); the emitted
boolean is "needs rescan". -/
def changeCheck (addonDir : Str) (cache : CacheObj)
    (currentVars currentLoose : List (Str × Str)) : Bool :=
  if addonDir ≠ cachedDirStr cache then true
  else match cache.all_var_sigs with
  | none => true
  | some cached_all =>
    if ¬ keySetEq (currentVars.map Prod.fst) (cached_all.map Prod.fst) then true
    else if currentVars.any
        (fun nv => decide (alistGet cached_all nv.1 ≠ some nv.2)) then true
    else if ¬ keySetEq (currentLoose.map Prod.fst)
        (cache.loose.map Prod.fst) then true
    else if currentLoose.any
        (fun nv => decide (looseSig cache.loose nv.1 ≠ some nv.2)) then true
    else false

/-- `_parse_var_base_and_version` (`gui_qt.py`). -/
def parse_var_base_and_version (var_filename : Str) : Str × Str :=
  let name := if pyEndsWith (pyLower var_filename) ".var".data then
    pyDropRight var_filename 4 else var_filename
  let parts := name.splitOn '.'
  if parts.length < 3 then (name, [])
  else (List.intercalate ".".data parts.dropLast, parts.getLastD [])

/-- Python `int(ver)` with the `except` fallback `-1` (digit strings only;
other accepted `int()` spellings do not occur in version suffixes). -/
def verNum (ver : Str) : Int :=
  if ver ≠ [] ∧ ver.all Char.isDigit then
    Int.ofNat (ver.foldl (fun acc c => acc * 10 + (c.toNat - 48)) 0)
  else -1

/-- One step of `_choose_latest_vars`'s `best` update. -/
def chooseLatestStep (best : List (Str × (Int × Str × Str))) (fn : Str) :
    List (Str × (Int × Str × Str)) :=
  let bv := parse_var_base_and_version fn
  let cand : Int × Str × Str := (verNum bv.2, bv.2, fn)
  match alistGet best bv.1 with
  | none => best ++ [(bv.1, cand)]
  | some cur =>
    if cand.1 > cur.1 ∨ (cand.1 = cur.1 ∧ strLt cur.2.1 cand.2.1 = true) ∨
        (cand.1 = cur.1 ∧ cand.2.1 = cur.2.1 ∧ strLt cur.2.2 cand.2.2 = true) then
      best.map (fun kv => if kv.1 = bv.1 then (kv.1, cand) else kv)
    else best

/-- `_choose_latest_vars` (`gui_qt.py`): the highest variant per base. -/
def choose_latest_vars (all_var_names : List Str) : List Str :=
  (all_var_names.foldl chooseLatestStep []).map (fun kv => kv.2.2.2)

/-- Modelled from the spec's words for C8 (refinement target, not source
code): rescan iff the directory changed, the set of known *latest-variant*
package names changed, some cached package's signature differs from its
current one, or the loose-scene set/signatures differ. -/
def specNeedsRescan (addonDir : Str) (cache : CacheObj)
    (cached_all : List (Str × Str))
    (currentVars currentLoose : List (Str × Str)) : Bool :=
  decide (addonDir ≠ cachedDirStr cache) ||
  !keySetEq (choose_latest_vars (currentVars.map Prod.fst))
    (choose_latest_vars (cached_all.map Prod.fst)) ||
  currentVars.any (fun nv =>
    match alistGet cached_all nv.1 with
    | some s2 => decide (nv.2 ≠ s2)
    | none => false) ||
  !keySetEq (currentLoose.map Prod.fst) (cache.loose.map Prod.fst) ||
  currentLoose.any (fun nv => decide (looseSig cache.loose nv.1 ≠ some nv.2))

theorem keySetEq_iff (a b : List Str) :
    keySetEq a b = true ↔ (∀ n, n ∈ a ↔ n ∈ b) := by
  rw [keySetEq, Bool.and_eq_true, List.all_eq_true, List.all_eq_true]
  constructor
  · rintro ⟨hab, hba⟩ n
    constructor
    · intro h
      simpa using hab n h
    · intro h
      simpa using hba n h
  · intro h
    constructor
    · intro n hn
      simpa using (h n).mp hn
    · intro n hn
      simpa using (h n).mpr hn

/-- **C8 (amended).** The incremental change check reports that a rescan is
needed iff the addon directory changed, the set of all on-disk package names
(every variant, enabled or disabled) differs from the cached set, some
package's current size-plus-mtime signature differs from its cached one, or
the loose-scene set/signatures differ; and the signature ignores access
times, so an access-time-only change cannot trigger a rescan. -/
theorem c8_rescan_iff :
    ∀ (addonDir : Str) (cache : CacheObj) (cached_all : List (Str × Str))
      (currentVars currentLoose : List (Str × Str)),
      cache.all_var_sigs = some cached_all →
      (changeCheck addonDir cache currentVars currentLoose = true ↔
        addonDir ≠ cachedDirStr cache ∨
        ¬ (∀ n, n ∈ currentVars.map Prod.fst ↔ n ∈ cached_all.map Prod.fst) ∨
        (∃ nv, nv ∈ currentVars ∧ alistGet cached_all nv.1 ≠ some nv.2) ∨
        ¬ (∀ n, n ∈ currentLoose.map Prod.fst ↔ n ∈ cache.loose.map Prod.fst) ∨
        (∃ nv, nv ∈ currentLoose ∧ looseSig cache.loose nv.1 ≠ some nv.2)) ∧
      (∀ (sz : Nat) (mt a1 a2 : Int),
        varSignature (some ⟨sz, mt, a1⟩) = varSignature (some ⟨sz, mt, a2⟩)) := by
  intro addonDir cache cached_all currentVars currentLoose hcache
  constructor
  · rw [changeCheck, hcache]
    by_cases h1 : addonDir ≠ cachedDirStr cache
    · rw [if_pos h1]
      simp only [true_iff]
      exact Or.inl h1
    rw [if_neg h1]
    simp only []
    by_cases h2 : keySetEq (currentVars.map Prod.fst)
        (cached_all.map Prod.fst) = true
    case neg =>
      rw [if_pos h2]
      simp only [true_iff]
      refine Or.inr (Or.inl ?_)
      rw [← keySetEq_iff]
      exact h2
    rw [if_neg (not_not_intro h2)]
    by_cases h3 : currentVars.any
        (fun nv => decide (alistGet cached_all nv.1 ≠ some nv.2)) = true
    case pos =>
      rw [if_pos h3]
      simp only [true_iff]
      rcases List.any_eq_true.mp h3 with ⟨nv, hnv, hd⟩
      exact Or.inr (Or.inr (Or.inl ⟨nv, hnv, of_decide_eq_true hd⟩))
    rw [if_neg h3]
    by_cases h4 : keySetEq (currentLoose.map Prod.fst)
        (cache.loose.map Prod.fst) = true
    case neg =>
      rw [if_pos h4]
      simp only [true_iff]
      refine Or.inr (Or.inr (Or.inr (Or.inl ?_)))
      rw [← keySetEq_iff]
      exact h4
    rw [if_neg (not_not_intro h4)]
    by_cases h5 : currentLoose.any
        (fun nv => decide (looseSig cache.loose nv.1 ≠ some nv.2)) = true
    case pos =>
      rw [if_pos h5]
      simp only [true_iff]
      rcases List.any_eq_true.mp h5 with ⟨nv, hnv, hd⟩
      exact Or.inr (Or.inr (Or.inr (Or.inr ⟨nv, hnv, of_decide_eq_true hd⟩)))
    rw [if_neg h5]
    simp only [Bool.false_eq_true, false_iff]
    push_neg at h1
    rintro (hx | hx | hx | hx | hx)
    · exact hx h1
    · exact hx ((keySetEq_iff _ _).mp h2)
    · rcases hx with ⟨nv, hnv, hne⟩
      exact h3 (List.any_eq_true.mpr ⟨nv, hnv, decide_eq_true hne⟩)
    · exact hx ((keySetEq_iff _ _).mp h4)
    · rcases hx with ⟨nv, hnv, hne⟩
      exact h5 (List.any_eq_true.mpr ⟨nv, hnv, decide_eq_true hne⟩)
  · intro sz mt a1 a2
    rfl

def c8cache : CacheObj :=
  ⟨some "D".data, some [("C.A.2.var".data, "1:1".data)], []⟩

def c8curr : List (Str × Str) :=
  [("C.A.1.var".data, "1:1".data), ("C.A.2.var".data, "1:1".data)]

/-- **C8 counterexample.** Adding a non-latest variant (`C.A.1.var` next to a
cached `C.A.2.var`) triggers a rescan in the code (the set of *all* names
changed) although the claim's conditions all fail: the latest-variant set is
unchanged and every cached package's signature is unchanged. -/
theorem c8_counterexample :
    changeCheck "D".data c8cache c8curr [] = true ∧
      specNeedsRescan "D".data c8cache [("C.A.2.var".data, "1:1".data)]
        c8curr [] = false := by
  constructor
  · decide
  · decide

theorem c8_witness :
    c8cache.all_var_sigs = some [("C.A.2.var".data, "1:1".data)] ∧
      varSignature (some ⟨7, 5, 1⟩) = varSignature (some ⟨7, 5, 2⟩) :=
  ⟨rfl, (c8_rescan_iff "D".data c8cache [("C.A.2.var".data, "1:1".data)]
    c8curr [] rfl).2 7 5 1 2⟩

/-! ## `core/mover.py` and `cli.py` -/

/-- `shutil.move src dst` within one filesystem: `os.rename`, silently
replacing an existing `dst`.  (A missing `src` would raise; every call site
moves a freshly listed file.) -/
def fsMove (fs : FS) (src dst : Str) : FS :=
  match fsGet fs src with
  | none => fs
  | some c => (dst, c) :: fsErase (fsErase fs src) dst

/-- The loop of `move_unused_vars` (`core/mover.py`) over the `*.var`
listing. -/
def moverLoop (used : List Str) (fs : FS) : List Str → FS × List Str
  | [] => (fs, [])
  | n :: rest =>
    if n ∈ used then moverLoop used fs rest
    else
      let r := moverLoop used
        (fsMove fs n ("delete candidate/".data ++ n)) rest
      (r.1, n :: r.2)

/-- `move_unused_vars` (`core/mover.py`): move every top-level `.var` file
not in `used_var_names` into the `delete candidate` subdirectory. -/
def move_unused_vars (fs : FS) (used_var_names : List Str) : FS × List Str :=
  moverLoop used_var_names fs ((fs.map Prod.fst).filter (fun n =>
    decide (('/' : Char) ∉ n) && pyEndsWith n ".var".data))

/-- The move loop of `cli.py` (`if src.exists(): shutil.move(...)`). -/
def cliMoveLoop (fs : FS) : List Str → FS × Nat
  | [] => (fs, 0)
  | n :: rest =>
    if fsExists fs n then
      let r := cliMoveLoop (fsMove fs n ("delete candidate/".data ++ n)) rest
      (r.1, r.2 + 1)
    else cliMoveLoop fs rest

/-- `cli.py`'s `__main__`: analyse, then move `sorted(unused_vars)` into
`delete candidate`; returns the directory and the moved count. -/
def cliMain (scan : Str → ScanInfo) (fs : FS) : FS × Nat :=
  cliMoveLoop fs
    (((collect_used_and_unused_vars scan (fs.map Prod.fst)).2.2).mergeSort strLe)

theorem fsGet_move_dst (fs : FS) (s d : Str) (h : fsExists fs s = true) :
    fsGet (fsMove fs s d) d = fsGet fs s := by
  rw [fsExists, Option.isSome_iff_exists] at h
  rcases h with ⟨c, hc⟩
  rw [fsMove, hc, fsGet, if_pos rfl]

theorem fsGet_move_src (fs : FS) (s d : Str) (hne : s ≠ d) :
    fsGet (fsMove fs s d) s = none := by
  rw [fsMove]
  match hc : fsGet fs s with
  | none => exact hc
  | some c =>
    rw [fsGet, if_neg (fun hh => hne hh.symm),
      fsGet_erase_other (fsErase fs s) d s hne, fsGet_erase_self]

theorem fsGet_move_other (fs : FS) (s d p : Str) (h1 : p ≠ s) (h2 : p ≠ d) :
    fsGet (fsMove fs s d) p = fsGet fs p := by
  rw [fsMove]
  match hc : fsGet fs s with
  | none => rfl
  | some c =>
    rw [fsGet, if_neg (fun hh => h2 hh.symm),
      fsGet_erase_other (fsErase fs s) d p h2, fsGet_erase_other fs s p h1]

theorem slash_mem_dc (n : Str) :
    ('/' : Char) ∈ "delete candidate/".data ++ n :=
  List.mem_append.mpr (Or.inl (by decide))

theorem dc_ne_of_no_slash (m n : Str) (hm : ('/' : Char) ∉ m) :
    m ≠ "delete candidate/".data ++ n := by
  intro h
  rw [h] at hm
  exact hm (slash_mem_dc n)

theorem dc_inj (m n : Str) (h : "delete candidate/".data ++ m =
    "delete candidate/".data ++ n) : m = n :=
  List.append_cancel_left h

theorem cliMoveLoop_spec (names : List Str) (fs : FS) (hnd : names.Nodup)
    (hsl : ∀ n ∈ names, ('/' : Char) ∉ n)
    (hex : ∀ n ∈ names, fsExists fs n = true) :
    (∀ n ∈ names,
      fsGet (cliMoveLoop fs names).1 ("delete candidate/".data ++ n) =
        fsGet fs n ∧
      fsGet (cliMoveLoop fs names).1 n = none) ∧
    (∀ p, (∀ n ∈ names, p ≠ n ∧ p ≠ "delete candidate/".data ++ n) →
      fsGet (cliMoveLoop fs names).1 p = fsGet fs p) := by
  induction names generalizing fs with
  | nil =>
    exact ⟨fun n hn => absurd hn (List.not_mem_nil n), fun p _ => rfl⟩
  | cons n rest ih =>
    have hn_ex : fsExists fs n = true := hex n (List.mem_cons_self _ _)
    have hn_sl : ('/' : Char) ∉ n := hsl n (List.mem_cons_self _ _)
    have hn_nin : n ∉ rest := (List.nodup_cons.mp hnd).1
    rw [cliMoveLoop, if_pos hn_ex]
    set dcn := "delete candidate/".data ++ n with hdcn
    set fs1 := fsMove fs n dcn with hfs1
    have hex' : ∀ m ∈ rest, fsExists fs1 m = true := by
      intro m hm
      have hm_sl : ('/' : Char) ∉ m := hsl m (List.mem_cons_of_mem _ hm)
      have h1 : m ≠ n := fun h => hn_nin (h ▸ hm)
      have h2 : m ≠ dcn := dc_ne_of_no_slash m n hm_sl
      rw [fsExists, fsGet_move_other fs n dcn m h1 h2]
      exact hex m (List.mem_cons_of_mem _ hm)
    have ihr := ih fs1 (List.nodup_cons.mp hnd).2
      (fun m hm => hsl m (List.mem_cons_of_mem _ hm)) hex'
    constructor
    · intro m hm
      rcases List.mem_cons.mp hm with rfl | hm2
      · constructor
        · have hfr := ihr.2 dcn (by
            intro m2 hm2
            refine ⟨?_, ?_⟩
            · exact (dc_ne_of_no_slash m2 m
                (hsl m2 (List.mem_cons_of_mem _ hm2))).symm
            · intro h
              exact hn_nin ((dc_inj m m2 h) ▸ hm2))
          rw [hfr, hfs1, fsGet_move_dst fs m dcn hn_ex]
        · have hfr := ihr.2 m (by
            intro m2 hm2
            refine ⟨fun h => hn_nin (h ▸ hm2), ?_⟩
            exact dc_ne_of_no_slash m m2 hn_sl)
          rw [hfr, hfs1, fsGet_move_src fs m dcn
            (dc_ne_of_no_slash m m hn_sl)]
      · have := ihr.1 m hm2
        refine ⟨?_, this.2⟩
        rw [this.1, hfs1]
        have h1 : m ≠ n := fun h => hn_nin (h ▸ hm2)
        have h2 : m ≠ dcn :=
          dc_ne_of_no_slash m n (hsl m (List.mem_cons_of_mem _ hm2))
        rw [fsGet_move_other fs n dcn m h1 h2]
    · intro p hp
      have hp1 := hp n (List.mem_cons_self _ _)
      have hfr := ihr.2 p (fun m hm => hp m (List.mem_cons_of_mem _ hm))
      rw [hfr, hfs1, fsGet_move_other fs n dcn p hp1.1 hp1.2]

theorem moverLoop_spec (used : List Str) (names : List Str) (fs : FS)
    (hnd : names.Nodup) (hsl : ∀ n ∈ names, ('/' : Char) ∉ n)
    (hex : ∀ n ∈ names, fsExists fs n = true) :
    (∀ n ∈ names, n ∉ used →
      fsGet (moverLoop used fs names).1 ("delete candidate/".data ++ n) =
        fsGet fs n ∧
      fsGet (moverLoop used fs names).1 n = none) ∧
    (∀ p, (∀ n ∈ names, n ∉ used →
        p ≠ n ∧ p ≠ "delete candidate/".data ++ n) →
      fsGet (moverLoop used fs names).1 p = fsGet fs p) := by
  induction names generalizing fs with
  | nil =>
    exact ⟨fun n hn => absurd hn (List.not_mem_nil n), fun p _ => rfl⟩
  | cons n rest ih =>
    have hn_ex : fsExists fs n = true := hex n (List.mem_cons_self _ _)
    have hn_sl : ('/' : Char) ∉ n := hsl n (List.mem_cons_self _ _)
    have hn_nin : n ∉ rest := (List.nodup_cons.mp hnd).1
    by_cases hu : n ∈ used
    · rw [moverLoop, if_pos hu]
      have ihr := ih fs (List.nodup_cons.mp hnd).2
        (fun m hm => hsl m (List.mem_cons_of_mem _ hm))
        (fun m hm => hex m (List.mem_cons_of_mem _ hm))
      constructor
      · intro m hm hmu
        rcases List.mem_cons.mp hm with rfl | hm2
        · exact absurd hu hmu
        · exact ihr.1 m hm2 hmu
      · intro p hp
        exact ihr.2 p (fun m hm => hp m (List.mem_cons_of_mem _ hm))
    · rw [moverLoop, if_neg hu]
      set dcn := "delete candidate/".data ++ n with hdcn
      set fs1 := fsMove fs n dcn with hfs1
      have hex' : ∀ m ∈ rest, fsExists fs1 m = true := by
        intro m hm
        have h1 : m ≠ n := fun h => hn_nin (h ▸ hm)
        have h2 : m ≠ dcn :=
          dc_ne_of_no_slash m n (hsl m (List.mem_cons_of_mem _ hm))
        rw [fsExists, fsGet_move_other fs n dcn m h1 h2]
        exact hex m (List.mem_cons_of_mem _ hm)
      have ihr := ih fs1 (List.nodup_cons.mp hnd).2
        (fun m hm => hsl m (List.mem_cons_of_mem _ hm)) hex'
      constructor
      · intro m hm hmu
        rcases List.mem_cons.mp hm with rfl | hm2
        · constructor
          · have hfr := ihr.2 dcn (by
              intro m2 hm2 hm2u
              refine ⟨?_, ?_⟩
              · exact (dc_ne_of_no_slash m2 m
                  (hsl m2 (List.mem_cons_of_mem _ hm2))).symm
              · intro h
                exact hn_nin ((dc_inj m m2 h) ▸ hm2))
            rw [hfr, hfs1, fsGet_move_dst fs m dcn hn_ex]
          · have hfr := ihr.2 m (by
              intro m2 hm2 hm2u
              refine ⟨fun h => hn_nin (h ▸ hm2), ?_⟩
              exact dc_ne_of_no_slash m m2 hn_sl)
            rw [hfr, hfs1, fsGet_move_src fs m dcn
              (dc_ne_of_no_slash m m hn_sl)]
        · have hres := ihr.1 m hm2 hmu
          refine ⟨?_, hres.2⟩
          rw [hres.1, hfs1]
          have h1 : m ≠ n := fun h => hn_nin (h ▸ hm2)
          have h2 : m ≠ dcn :=
            dc_ne_of_no_slash m n (hsl m (List.mem_cons_of_mem _ hm2))
          rw [fsGet_move_other fs n dcn m h1 h2]
      · intro p hp
        have hp1 := hp n (List.mem_cons_self _ _) hu
        have hfr := ihr.2 p (fun m hm hmu => hp m (List.mem_cons_of_mem _ hm) hmu)
        rw [hfr, hfs1, fsGet_move_other fs n dcn p hp1.1 hp1.2]

/-- **C10 (amended).** The CLI moves exactly the top-level archive files that
are neither in the used set nor asset-protected into `delete candidate`,
preserving each file name and content; every other binding is untouched.  The
helper `move_unused_vars` moves every top-level `.var` file not in the given
used set, as the claim states. -/
theorem c10_cli_and_mover (scan : Str → ScanInfo) (fs : FS)
    (hnd : (fs.map Prod.fst).Nodup) :
    (∀ n ∈ (collect_used_and_unused_vars scan (fs.map Prod.fst)).2.2,
      fsGet (cliMain scan fs).1 ("delete candidate/".data ++ n) = fsGet fs n ∧
      fsGet (cliMain scan fs).1 n = none) ∧
    (∀ p, (∀ n ∈ (collect_used_and_unused_vars scan (fs.map Prod.fst)).2.2,
        p ≠ n ∧ p ≠ "delete candidate/".data ++ n) →
      fsGet (cliMain scan fs).1 p = fsGet fs p) ∧
    (∀ used n, n ∈ fs.map Prod.fst → ('/' : Char) ∉ n →
      pyEndsWith n ".var".data = true → n ∉ used →
      fsGet (move_unused_vars fs used).1 ("delete candidate/".data ++ n) =
        fsGet fs n ∧
      fsGet (move_unused_vars fs used).1 n = none) := by
  have hmem0 : ∀ n, n ∈ (collect_used_and_unused_vars scan
      (fs.map Prod.fst)).2.2 →
      n ∈ fs.map Prod.fst ∧ ('/' : Char) ∉ n := by
    intro n hn
    have hn2 := List.mem_filter.mp hn
    have hn3 := List.mem_dedup.mp hn2.1
    have hn4 := List.mem_filter.mp hn3
    have hn5 := hn4.2
    rw [Bool.and_eq_true] at hn5
    exact ⟨hn4.1, by simpa using hn5.1⟩
  have hnodupU : (collect_used_and_unused_vars scan
      (fs.map Prod.fst)).2.2.Nodup :=
    List.Nodup.filter _ (List.nodup_dedup _)
  have hperm : ((collect_used_and_unused_vars scan
      (fs.map Prod.fst)).2.2.mergeSort strLe).Perm
      (collect_used_and_unused_vars scan (fs.map Prod.fst)).2.2 :=
    List.mergeSort_perm _ _
  have hspec := cliMoveLoop_spec
    ((collect_used_and_unused_vars scan (fs.map Prod.fst)).2.2.mergeSort strLe)
    fs (hperm.nodup_iff.mpr hnodupU)
    (fun n hn => (hmem0 n (hperm.mem_iff.mp hn)).2)
    (fun n hn => (fsExists_iff_mem_keys fs n).mpr
      (hmem0 n (hperm.mem_iff.mp hn)).1)
  refine ⟨?_, ?_, ?_⟩
  · intro n hn
    exact hspec.1 n (hperm.mem_iff.mpr hn)
  · intro p hp
    exact hspec.2 p (fun n hn => hp n (hperm.mem_iff.mp hn))
  · intro used n hmem hsl hvar hnu
    have hnames : ((fs.map Prod.fst).filter (fun n =>
        decide (('/' : Char) ∉ n) && pyEndsWith n ".var".data)).Nodup :=
      List.Nodup.filter _ hnd
    have hmspec := moverLoop_spec used
      ((fs.map Prod.fst).filter (fun n =>
        decide (('/' : Char) ∉ n) && pyEndsWith n ".var".data)) fs hnames
      (fun m hm => by
        have hm2 := (List.mem_filter.mp hm).2
        rw [Bool.and_eq_true] at hm2
        simpa using hm2.1)
      (fun m hm => (fsExists_iff_mem_keys fs m).mpr (List.mem_filter.mp hm).1)
    exact hmspec.1 n (List.mem_filter.mpr ⟨hmem, by
      rw [Bool.and_eq_true]
      exact ⟨by simpa using hsl, hvar⟩⟩) hnu

def c10fs : FS := [("a.[asset].1.var".data, 0)]

def c10scan : Str → ScanInfo := fun _ => ⟨false, []⟩

/-- **C10 counterexample.** The CLI does not move every top-level archive
outside the used set: an asset-named var with no scenes is in no used set,
yet `cli.py` moves only `unused_vars`, which excludes protected assets — the
file stays at top level and nothing lands in `delete candidate`. -/
theorem c10_counterexample :
    "a.[asset].1.var".data ∉
      (collect_used_and_unused_vars c10scan (c10fs.map Prod.fst)).2.1 ∧
    fsGet (cliMain c10scan c10fs).1 "a.[asset].1.var".data = some 0 ∧
    fsGet (cliMain c10scan c10fs).1
      ("delete candidate/".data ++ "a.[asset].1.var".data) = none := by
  refine ⟨?_, ?_, ?_⟩
  · simp +decide [collect_used_and_unused_vars, c10fs, c10scan, closureLoop,
      addMatches, resolve_dependency, pyEndsWith, pyStartsWith, pyLower,
      pyContains, pyDropRight, is_asset_var]
  · simp +decide [cliMain, collect_used_and_unused_vars, c10fs, c10scan,
      closureLoop, addMatches, resolve_dependency, pyEndsWith, pyStartsWith,
      pyLower, pyContains, pyDropRight, is_asset_var, cliMoveLoop,
      List.mergeSort, fsGet, fsExists, fsMove, fsErase]
  · simp +decide [cliMain, collect_used_and_unused_vars, c10fs, c10scan,
      closureLoop, addMatches, resolve_dependency, pyEndsWith, pyStartsWith,
      pyLower, pyContains, pyDropRight, is_asset_var, cliMoveLoop,
      List.mergeSort, fsGet, fsExists, fsMove, fsErase]

theorem c10_witness :
    ((c10fs ++ [("b.var".data, 1)]).map Prod.fst).Nodup ∧
    "b.var".data ∈ (collect_used_and_unused_vars c10scan
      ((c10fs ++ [("b.var".data, 1)]).map Prod.fst)).2.2 ∧
    fsGet (cliMain c10scan (c10fs ++ [("b.var".data, 1)])).1
      ("delete candidate/".data ++ "b.var".data) = some 1 ∧
    fsGet (cliMain c10scan (c10fs ++ [("b.var".data, 1)])).1 "b.var".data =
      none := by
  have h := c10_cli_and_mover c10scan (c10fs ++ [("b.var".data, 1)])
    (by decide)
  have hmem : "b.var".data ∈ (collect_used_and_unused_vars c10scan
      ((c10fs ++ [("b.var".data, 1)]).map Prod.fst)).2.2 := by
    simp +decide [collect_used_and_unused_vars, c10fs, c10scan, closureLoop,
      addMatches, resolve_dependency, pyEndsWith, pyStartsWith, pyLower,
      pyContains, pyDropRight, is_asset_var]
  have hres := h.1 "b.var".data hmem
  refine ⟨by decide, hmem, ?_, hres.2⟩
  rw [hres.1]
  decide
